import Mathlib

/-!
Verification of the numeric core of GNU bc with a GMP back-end
(`src/lib/number.c`).  A `bc_num` is modelled as the pair of its GMP
integer (`mpz_t n_value`, an unbounded signed integer) and its decimal
scale (`int n_scale`, always non-negative in this library).  GMP's
truncating division `mpz_tdiv_q` is `Int.tdiv`; `mpz_sqrt` on the
non-negative operands the code feeds it is `Int.sqrt`.  The host `long`
is modelled as a 64-bit two's-complement machine word (LP64 hosts), so
`LONG_MAX = 2^63 - 1` and `mpz_fits_slong_p` checks membership in
`[-2^63, 2^63 - 1]`.
-/

namespace BC

/-- A bc number: the GMP integer carrying sign and digits, and the decimal
scale.  The value represented is `value / 10 ^ scale`. -/
structure bc_num where
  value : Int
  scale : Nat
deriving DecidableEq, Repr

/-- The singleton `_zero_` installed by `bc_init_numbers`. -/
def _zero_ : bc_num := ⟨0, 0⟩

/-- The singleton `_one_`. -/
def _one_ : bc_num := ⟨1, 0⟩

/-- The singleton `_two_`. -/
def _two_ : bc_num := ⟨2, 0⟩

/-- The rational value a `bc_num` denotes. -/
def toRat (n : bc_num) : ℚ := (n.value : ℚ) / 10 ^ n.scale

/-- Truncation of a rational toward zero, the only rounding mode the
library uses. -/
def ratTrunc (x : ℚ) : ℤ := if 0 ≤ x then ⌊x⌋ else ⌈x⌉

/-- `_bc_do_compare` from number.c: scale-normalized comparison, stepping
the smaller-scale operand up by a power of ten; signed when `use_sign`,
magnitudes otherwise.  Returns -1, 0 or 1. -/
def _bc_do_compare (n1 n2 : bc_num) (use_sign : Bool) : Int :=
  let result : Int :=
    if n1.scale > n2.scale then
      let copy := n2.value * 10 ^ (n1.scale - n2.scale)
      if use_sign then compare n1.value copy
      else compare n1.value.natAbs copy.natAbs
    else if n1.scale < n2.scale then
      let copy := n1.value * 10 ^ (n2.scale - n1.scale)
      if use_sign then compare copy n2.value
      else compare copy.natAbs n2.value.natAbs
    else
      if use_sign then compare n1.value n2.value
      else compare n1.value.natAbs n2.value.natAbs
  result
where
  /-- The sign of `mpz_cmp`, already clamped to -1, 0, 1. -/
  compare {α : Type} [LinearOrder α] (a b : α) : Int :=
    if a < b then -1 else if a = b then 0 else 1

/-- `bc_compare`: the user-callable signed comparison. -/
def bc_compare (n1 n2 : bc_num) : Int := _bc_do_compare n1 n2 true

/-- `bc_is_neg`: `mpz_sgn (num->n_value) == -1`. -/
def bc_is_neg (num : bc_num) : Bool := num.value < 0

/-- `bc_is_zero`: `mpz_sgn (num->n_value) == 0`. -/
def bc_is_zero (num : bc_num) : Bool := num.value = 0

/-- `bc_sub`: subtract after stepping the smaller-scale operand up, then
step the difference up to `scale_min` if needed.  The stored scale is
`max (max n1.scale n2.scale) scale_min`. -/
def bc_sub (n1 n2 : bc_num) (scale_min : Nat) : bc_num :=
  let diff_scale := max n1.scale n2.scale
  let v : Int :=
    if n1.scale > n2.scale then
      n1.value - n2.value * 10 ^ (n1.scale - n2.scale)
    else if n1.scale < n2.scale then
      n1.value * 10 ^ (n2.scale - n1.scale) - n2.value
    else
      n1.value - n2.value
  let v2 : Int := if diff_scale < scale_min then v * 10 ^ (scale_min - diff_scale) else v
  ⟨v2, max diff_scale scale_min⟩

/-- `bc_add`: add after stepping the smaller-scale operand up, then step
the sum up to `scale_min` if needed. -/
def bc_add (n1 n2 : bc_num) (scale_min : Nat) : bc_num :=
  let sum_scale := max n1.scale n2.scale
  let v : Int :=
    if n1.scale > n2.scale then
      n1.value + n2.value * 10 ^ (n1.scale - n2.scale)
    else if n1.scale < n2.scale then
      n1.value * 10 ^ (n2.scale - n1.scale) + n2.value
    else
      n1.value + n2.value
  let v2 : Int := if sum_scale < scale_min then v * 10 ^ (scale_min - sum_scale) else v
  ⟨v2, max sum_scale scale_min⟩

/-- `bc_multiply`: multiply the integers; if the full scale exceeds the
chosen product scale, truncate toward zero with `mpz_tdiv_q`. -/
def bc_multiply (n1 n2 : bc_num) (scale : Nat) : bc_num :=
  let full_scale := n1.scale + n2.scale
  let prod_scale := min full_scale (max scale (max n1.scale n2.scale))
  let p := n1.value * n2.value
  let v : Int :=
    if full_scale > prod_scale then p.tdiv (10 ^ (full_scale - prod_scale)) else p
  ⟨v, prod_scale⟩

/-- `bc_divide`: on a zero divisor return -1 leaving the caller's quotient
slot (threaded here as `oldQuot`) untouched; otherwise step the dividend
so the quotient's fixed point lands at `scale` and truncate-divide. -/
def bc_divide (n1 n2 : bc_num) (oldQuot : bc_num) (scale : Nat) : Int × bc_num :=
  if bc_is_zero n2 then (-1, oldQuot)
  else
    let step_amt : Int := (n2.scale : Int) + (scale : Int) - (n1.scale : Int)
    let v : Int :=
      if step_amt ≠ 0 then
        if step_amt > 0 then
          (n1.value * 10 ^ step_amt.toNat).tdiv n2.value
        else
          (n1.value.tdiv (10 ^ (-step_amt).toNat)).tdiv n2.value
      else
        n1.value.tdiv n2.value
    (0, ⟨v, scale⟩)

/-- `bc_divmod`: quotient at `scale`, remainder `n1 - q * n2` computed at
`rscale = max n1.scale (n2.scale + scale)`.  The quotient store is
omitted when the caller passes NULL (`none`).  On a zero divisor both
slots keep their old occupants. -/
def bc_divmod (num1 num2 : bc_num) (oldQuot : Option bc_num) (oldRem : bc_num)
    (scale : Nat) : Int × Option bc_num × bc_num :=
  if bc_is_zero num2 then (-1, oldQuot, oldRem)
  else
    let rscale := max num1.scale (num2.scale + scale)
    let temp := (bc_divide num1 num2 _zero_ scale).2
    let quotient := temp
    let temp2 := bc_multiply temp num2 rscale
    let r := bc_sub num1 temp2 rscale
    (0, oldQuot.map (fun _ => quotient), r)

/-- `bc_modulo`: `bc_divmod` with the quotient store omitted. -/
def bc_modulo (num1 num2 : bc_num) (oldResult : bc_num) (scale : Nat) : Int × bc_num :=
  let r := bc_divmod num1 num2 none oldResult scale
  (r.1, r.2.2)

/-- `LONG_MAX` of the modelled LP64 host. -/
def LONG_MAX : Int := 2 ^ 63 - 1

/-- `bc_num2long`: the truncated integer part if it fits a host `long`,
with 0 returned on overflow and also for `-LONG_MAX - 1` (the code
excludes the most negative long because negating it would overflow in
`bc_raise`). -/
def bc_num2long (num : bc_num) : Int :=
  let v : Int :=
    if num.scale > 0 then num.value.tdiv (10 ^ num.scale) else num.value
  if v < -LONG_MAX - 1 ∨ LONG_MAX < v then 0
  else if v = -LONG_MAX - 1 then 0
  else v

/-- `bc_int2num`. -/
def bc_int2num (val : Int) : bc_num := ⟨val, 0⟩

/-- The quotient extracted by `bc_divmod (e, _two_, ..., 0)` has strictly
smaller magnitude than `e` whenever `e` is nonzero; this bounds the
`bc_raisemod` loop. -/
lemma rm_exponent_decreases (e : bc_num) (he : e.value ≠ 0) :
    (((bc_divmod e _two_ (some _zero_) _zero_ 0).2.1).getD _zero_).value.natAbs <
      e.value.natAbs := by
  have hpos : 0 < e.value.natAbs := Int.natAbs_pos.mpr he
  unfold bc_divmod
  rw [if_neg (by decide)]
  unfold bc_divide
  rw [if_neg (by decide)]
  simp only [Option.map_some', Option.getD_some]
  rcases Nat.eq_zero_or_pos e.scale with hs | hs
  · rw [if_neg (by simp [_two_, hs])]
    simp only [_two_, Int.natAbs_tdiv]
    exact Nat.div_lt_self hpos one_lt_two
  · rw [if_pos (by simp [_two_] <;> omega), if_neg (by simp [_two_] <;> omega)]
    simp only [_two_, Int.natAbs_tdiv]
    refine lt_of_le_of_lt (Nat.div_le_div_right (Nat.div_le_self _ _)) ?_
    exact Nat.div_lt_self hpos one_lt_two

/-- The square-and-multiply loop of `bc_raisemod`.  The exponent halves
through `bc_divmod (exponent, _two_, ..., 0)` each iteration, so its
magnitude strictly decreases. -/
def _bc_rm_loop (power exponent temp mod_ : bc_num) (scale rscale : Nat) : bc_num :=
  if h : exponent.value = 0 then temp
  else
    let dm := bc_divmod exponent _two_ (some _zero_) _zero_ 0
    let exponent2 := (dm.2.1).getD _zero_
    let parity := dm.2.2
    let temp2 :=
      if ¬ bc_is_zero parity then
        (bc_modulo (bc_multiply temp power rscale) mod_ _zero_ scale).2
      else temp
    let power2 := (bc_modulo (bc_multiply power power rscale) mod_ _zero_ scale).2
    _bc_rm_loop power2 exponent2 temp2 mod_ scale rscale
termination_by exponent.value.natAbs
decreasing_by
  exact rm_exponent_decreases exponent h

/-- `bc_raisemod`: modular exponentiation.  A zero modulus or negative
exponent fails with -1 before anything is written; the caller's result
slot (threaded as `oldResult`) is untouched in that case. -/
def bc_raisemod (base expo mod_ : bc_num) (oldResult : bc_num) (scale : Nat) :
    Int × bc_num :=
  if bc_is_zero mod_ then (-1, oldResult)
  else if bc_is_neg expo then (-1, oldResult)
  else
    let exponent := if expo.scale ≠ 0 then (bc_divide expo _one_ _zero_ 0).2 else expo
    let rscale := max scale base.scale
    (0, _bc_rm_loop base exponent _one_ mod_ scale rscale)

/-- The condition under which `bc_raise` invokes the host error callback
`rt_error ("exponent too large in raise")`: `bc_num2long` collapsed the
exponent to 0 while its magnitude exceeds 1. -/
def bc_raise_raises (num2 : bc_num) : Bool :=
  (bc_num2long num2 == 0) && (decide (0 < _bc_do_compare num2 _one_ false))

/-- `bc_raise`: integer power by `mpz_pow_ui` on the magnitude of the
exponent, stepped to the working scale, with the negative-exponent case
finished by `bc_divide (_one_, temp, result, rscale)`.  This is the value
installed when the error callback is not invoked (the host treats the
error as a hard runtime failure). -/
def bc_raise (num1 num2 : bc_num) (oldResult : bc_num) (scale : Nat) : bc_num :=
  let exponent := bc_num2long num2
  if exponent = 0 then _one_
  else
    let neg := exponent < 0
    let expabs := exponent.natAbs
    let rscale := if neg then scale else min (num1.scale * expabs) (max scale num1.scale)
    let diffscale : Int := ((num1.scale * expabs : Nat) : Int) - (rscale : Int)
    let powv := num1.value ^ expabs
    let v : Int :=
      if diffscale ≠ 0 then
        if diffscale < 0 then powv * 10 ^ (-diffscale).toNat
        else powv.tdiv (10 ^ diffscale.toNat)
      else powv
    let temp : bc_num := ⟨v, rscale⟩
    if neg then (bc_divide _one_ temp oldResult rscale).2
    else temp

/-- `bc_sqrt`: fails (returns false, slot untouched) on a negative
radicand; installs the `_zero_`/`_one_` singleton when the value compares
equal to 0 or 1; otherwise steps the integer by
`10 ^ (n_scale + 2*(rscale - n_scale))` and takes `mpz_sqrt`.  The slot
is threaded in and out. -/
def bc_sqrt (num : bc_num) (scale : Nat) : Bool × bc_num :=
  if bc_compare num _zero_ < 0 then (false, num)
  else if bc_compare num _zero_ = 0 then (true, _zero_)
  else if bc_compare num _one_ = 0 then (true, _one_)
  else
    let rscale := max scale num.scale
    let step_amt : Int := (num.scale : Int) + 2 * ((rscale : Int) - (num.scale : Int))
    let v : Int :=
      if step_amt ≠ 0 then
        if step_amt > 0 then num.value * 10 ^ step_amt.toNat
        else num.value.tdiv (10 ^ (-step_amt).toNat)
      else num.value
    (true, ⟨Int.sqrt v, rscale⟩)

/-! Semantic helper lemmas about the arithmetic core. -/

lemma ten_pow_pos_q (k : Nat) : (0 : ℚ) < 10 ^ k := by positivity

lemma ten_pow_ne_q (k : Nat) : (10 : ℚ) ^ k ≠ 0 := by positivity

/-- Stepping a value up by `10 ^ (t - s)` and reading it at scale `t`
gives back the value at scale `s`. -/
lemma qdiv_shift (v : Int) (s t : Nat) (h : s ≤ t) :
    (v : ℚ) * 10 ^ (t - s) / 10 ^ t = (v : ℚ) / 10 ^ s := by
  have hpow : (10 : ℚ) ^ t = 10 ^ (t - s) * 10 ^ s := by
    rw [← pow_add, Nat.sub_add_cancel h]
  rw [hpow, div_eq_div_iff (by positivity) (ten_pow_ne_q s)]
  ring

/-- The aligned-subtract-then-step-up value computed by `bc_sub`, in the
closed form in which both operands are stepped directly to the final
scale. -/
lemma sub_val_eq (v1 v2 : Int) (s1 s2 m : Nat) :
    (if max s1 s2 < m then
        (if s1 > s2 then v1 - v2 * 10 ^ (s1 - s2)
         else if s1 < s2 then v1 * 10 ^ (s2 - s1) - v2
         else v1 - v2) * 10 ^ (m - max s1 s2)
      else
        (if s1 > s2 then v1 - v2 * 10 ^ (s1 - s2)
         else if s1 < s2 then v1 * 10 ^ (s2 - s1) - v2
         else v1 - v2)) =
      v1 * 10 ^ (max (max s1 s2) m - s1) - v2 * 10 ^ (max (max s1 s2) m - s2) := by
  rcases lt_trichotomy s1 s2 with h | h | h
  · rw [if_neg (by omega : ¬ s1 > s2), if_pos h]
    rcases lt_or_ge (max s1 s2) m with hm | hm
    · rw [if_pos hm]
      have e0 : max (max s1 s2) m = m := by omega
      have e1 : s2 - s1 + (m - max s1 s2) = m - s1 := by omega
      have e2 : m - max s1 s2 = m - s2 := by omega
      rw [sub_mul, mul_assoc, ← pow_add, e1, e0, e2]
    · rw [if_neg (by omega : ¬ max s1 s2 < m)]
      have e0 : max (max s1 s2) m - s1 = s2 - s1 := by omega
      have e2 : max (max s1 s2) m - s2 = 0 := by omega
      rw [e0, e2, pow_zero, mul_one]
  · subst h
    rw [if_neg (by omega : ¬ s1 > s1), if_neg (by omega : ¬ s1 < s1)]
    rcases lt_or_ge (max s1 s1) m with hm | hm
    · rw [if_pos hm]
      have e1 : max (max s1 s1) m - s1 = m - max s1 s1 := by omega
      rw [sub_mul, e1]
    · rw [if_neg (by omega : ¬ max s1 s1 < m)]
      have e1 : max (max s1 s1) m - s1 = 0 := by omega
      rw [e1, pow_zero, mul_one, mul_one]
  · rw [if_pos h]
    rcases lt_or_ge (max s1 s2) m with hm | hm
    · rw [if_pos hm]
      have e0 : max (max s1 s2) m = m := by omega
      have e1 : s1 - s2 + (m - max s1 s2) = m - s2 := by omega
      have e2 : m - max s1 s2 = m - s1 := by omega
      rw [sub_mul, mul_assoc, ← pow_add, e1, e0, e2]
    · rw [if_neg (by omega : ¬ max s1 s2 < m)]
      have e0 : max (max s1 s2) m - s2 = s1 - s2 := by omega
      have e2 : max (max s1 s2) m - s1 = 0 := by omega
      rw [e0, e2, pow_zero, mul_one]

/-- Closed form for `bc_sub`: both operands stepped up to the final scale
`max (max n1.scale n2.scale) scale_min`, then subtracted. -/
lemma bc_sub_eq (n1 n2 : bc_num) (m : Nat) :
    bc_sub n1 n2 m =
      ⟨n1.value * 10 ^ (max (max n1.scale n2.scale) m - n1.scale) -
        n2.value * 10 ^ (max (max n1.scale n2.scale) m - n2.scale),
       max (max n1.scale n2.scale) m⟩ := by
  unfold bc_sub
  simp only
  rw [bc_num.mk.injEq]
  exact ⟨sub_val_eq n1.value n2.value n1.scale n2.scale m, rfl⟩

/-- `bc_sub` is exact: the represented rational is the difference. -/
lemma toRat_bc_sub (n1 n2 : bc_num) (m : Nat) :
    toRat (bc_sub n1 n2 m) = toRat n1 - toRat n2 := by
  rw [bc_sub_eq]
  unfold toRat
  simp only
  push_cast
  rw [sub_div,
    qdiv_shift n1.value n1.scale _ (le_trans (le_max_left _ _) (le_max_left _ _)),
    qdiv_shift n2.value n2.scale _ (le_trans (le_max_right _ _) (le_max_left _ _))]

/-- When the requested working scale accommodates the full product scale,
`bc_multiply` does not truncate. -/
lemma bc_multiply_exact (n1 n2 : bc_num) (scale : Nat)
    (h : n1.scale + n2.scale ≤ max scale (max n1.scale n2.scale)) :
    bc_multiply n1 n2 scale = ⟨n1.value * n2.value, n1.scale + n2.scale⟩ := by
  unfold bc_multiply
  simp only [min_eq_left h, gt_iff_lt, lt_irrefl, if_false]

/-- The exact-branch multiply represents the rational product. -/
lemma toRat_bc_multiply_exact (n1 n2 : bc_num) (scale : Nat)
    (h : n1.scale + n2.scale ≤ max scale (max n1.scale n2.scale)) :
    toRat (bc_multiply n1 n2 scale) = toRat n1 * toRat n2 := by
  rw [bc_multiply_exact n1 n2 scale h]
  unfold toRat
  simp only
  rw [pow_add]
  push_cast
  rw [div_mul_div_comm]

lemma cmp_eq_zero_iff {α : Type} [LinearOrder α] (a b : α) :
    _bc_do_compare.compare a b = 0 ↔ a = b := by
  unfold _bc_do_compare.compare
  split_ifs with h1 h2
  · exact iff_of_false (by norm_num) (ne_of_lt h1)
  · exact iff_of_true rfl h2
  · exact iff_of_false (by norm_num) h2

lemma cmp_lt_zero_iff {α : Type} [LinearOrder α] (a b : α) :
    _bc_do_compare.compare a b < 0 ↔ a < b := by
  unfold _bc_do_compare.compare
  split_ifs with h1 h2
  · exact iff_of_true (by norm_num) h1
  · exact iff_of_false (by norm_num) (by rw [h2]; exact lt_irrefl b)
  · exact iff_of_false (by norm_num) h1

lemma cmp_pos_iff {α : Type} [LinearOrder α] (a b : α) :
    0 < _bc_do_compare.compare a b ↔ b < a := by
  unfold _bc_do_compare.compare
  split_ifs with h1 h2
  · exact iff_of_false (by norm_num) (lt_asymm h1)
  · exact iff_of_false (by norm_num) (by rw [h2]; exact lt_irrefl b)
  · exact iff_of_true (by norm_num) (lt_of_le_of_ne (not_lt.mp h1) (Ne.symm h2))

/-- Comparison against the `_zero_` singleton is the sign of the stored
integer, whatever the scale. -/
lemma bc_compare_zero (n : bc_num) :
    bc_compare n _zero_ = _bc_do_compare.compare n.value 0 := by
  unfold bc_compare _bc_do_compare _zero_
  simp only [if_true]
  rcases Nat.eq_zero_or_pos n.scale with hs | hs
  · rw [if_neg (by omega), if_neg (by omega)]
  · rw [if_pos (by omega), zero_mul]

/-- Comparison against the `_one_` singleton succeeds exactly when the
stored integer is the power of ten matching the scale. -/
lemma bc_compare_one_eq_iff (n : bc_num) :
    bc_compare n _one_ = 0 ↔ n.value = 10 ^ n.scale := by
  unfold bc_compare _bc_do_compare _one_
  simp only [if_true]
  rcases Nat.eq_zero_or_pos n.scale with hs | hs
  · rw [if_neg (by omega), if_neg (by omega), cmp_eq_zero_iff, hs, pow_zero]
  · rw [if_pos (by omega), one_mul, cmp_eq_zero_iff, Nat.sub_zero]

/-- Magnitude comparison against `_one_`: positive exactly when the
magnitude of the number exceeds 1, i.e. `10 ^ scale < |value|`. -/
lemma do_compare_abs_one_pos_iff (n : bc_num) :
    0 < _bc_do_compare n _one_ false ↔ 10 ^ n.scale < n.value.natAbs := by
  unfold _bc_do_compare _one_
  simp only [Bool.false_eq_true, if_false]
  rcases Nat.eq_zero_or_pos n.scale with hs | hs
  · rw [if_neg (by omega), if_neg (by omega), cmp_pos_iff, hs, pow_zero]
    rfl
  · rw [if_pos (by omega), one_mul, cmp_pos_iff, Nat.sub_zero]
    have : ((10 : Int) ^ n.scale).natAbs = 10 ^ n.scale := by
      rw [Int.natAbs_pow]
      rfl
    rw [this]

/-- The magnitude of the represented rational exceeds 1 exactly when
`10 ^ scale < |value|`. -/
lemma abs_toRat_gt_one_iff (n : bc_num) :
    1 < |toRat n| ↔ 10 ^ n.scale < n.value.natAbs := by
  unfold toRat
  rw [abs_div, abs_of_pos (ten_pow_pos_q n.scale), lt_div_iff (ten_pow_pos_q n.scale),
    one_mul]
  rw [show |(n.value : ℚ)| = ((n.value.natAbs : ℕ) : ℚ) by
    rw [Int.cast_natAbs, Int.cast_abs]]
  constructor
  · intro h
    exact_mod_cast h
  · intro h
    exact_mod_cast h

/-- Truncating a scaled integer toward zero is exactly `mpz_tdiv_q` by the
matching power of ten. -/
lemma ratTrunc_intCast_div_pow (a : Int) (k : Nat) :
    ratTrunc ((a : ℚ) / 10 ^ k) = a.tdiv (10 ^ k) := by
  have hcq : (((10 : ℕ) ^ k : ℕ) : ℚ) = (10 : ℚ) ^ k := by push_cast; rfl
  have hcz : (((10 : ℕ) ^ k : ℕ) : ℤ) = (10 : ℤ) ^ k := by push_cast; rfl
  rcases le_or_lt 0 a with ha | ha
  · have hx : (0 : ℚ) ≤ (a : ℚ) / 10 ^ k :=
      div_nonneg (by exact_mod_cast ha) (le_of_lt (ten_pow_pos_q k))
    rw [ratTrunc, if_pos hx, ← hcq, Rat.floor_intCast_div_natCast, hcz,
      Int.tdiv_eq_ediv ha (by positivity)]
  · have hx : ¬ (0 : ℚ) ≤ (a : ℚ) / 10 ^ k := by
      rw [not_le]
      exact div_neg_of_neg_of_pos (by exact_mod_cast ha) (ten_pow_pos_q k)
    have hrw : (a : ℚ) / 10 ^ k = -(((-a : ℤ) : ℚ) / 10 ^ k) := by push_cast; ring
    rw [ratTrunc, if_neg hx, hrw, Int.ceil_neg, ← hcq, Rat.floor_intCast_div_natCast, hcz]
    have h1 : (-a).tdiv (10 ^ k) = (-a) / 10 ^ k :=
      Int.tdiv_eq_ediv (by omega) (by positivity)
    rw [← h1, Int.neg_tdiv, neg_neg]

/-- The stored integer of `bc_multiply`, written uniformly as a truncating
division (the untruncated branch divides by `10 ^ 0 = 1`). -/
lemma bc_multiply_val (n1 n2 : bc_num) (scale : Nat) :
    (bc_multiply n1 n2 scale).value =
      (n1.value * n2.value).tdiv
        (10 ^ (n1.scale + n2.scale -
          min (n1.scale + n2.scale) (max scale (max n1.scale n2.scale)))) := by
  unfold bc_multiply
  simp only
  rcases lt_or_ge (min (n1.scale + n2.scale) (max scale (max n1.scale n2.scale)))
      (n1.scale + n2.scale) with h | h
  · rw [if_pos h]
  · have e : n1.scale + n2.scale -
        min (n1.scale + n2.scale) (max scale (max n1.scale n2.scale)) = 0 := by omega
    rw [if_neg (by omega), e, pow_zero, Int.tdiv_one]

/-- On a nonzero divisor, `bc_divide` succeeds and stores scale `scale`. -/
lemma bc_divide_ok (n1 n2 : bc_num) (old : bc_num) (scale : Nat)
    (h : n2.value ≠ 0) :
    (bc_divide n1 n2 old scale).1 = 0 ∧ (bc_divide n1 n2 old scale).2.scale = scale := by
  unfold bc_divide bc_is_zero
  simp only [h, decide_eq_true_eq, if_false, decide_False]
  constructor <;> rfl

/-- Characterization of `bc_num2long` in terms of the rational integer
part: the truncated value when it fits the long range and is not the most
negative long, otherwise 0. -/
lemma bc_num2long_eq (num : bc_num) :
    bc_num2long num =
      (if (-LONG_MAX - 1 ≤ ratTrunc (toRat num) ∧ ratTrunc (toRat num) ≤ LONG_MAX) ∧
          ratTrunc (toRat num) ≠ -LONG_MAX - 1 then
        ratTrunc (toRat num)
      else 0) := by
  have hip : ratTrunc (toRat num) = num.value.tdiv (10 ^ num.scale) :=
    ratTrunc_intCast_div_pow num.value num.scale
  have huni : bc_num2long num =
      (if num.value.tdiv (10 ^ num.scale) < -LONG_MAX - 1 ∨
          LONG_MAX < num.value.tdiv (10 ^ num.scale) then 0
       else if num.value.tdiv (10 ^ num.scale) = -LONG_MAX - 1 then 0
       else num.value.tdiv (10 ^ num.scale)) := by
    unfold bc_num2long
    rcases Nat.eq_zero_or_pos num.scale with hs | hs
    · simp [hs]
    · rw [if_pos hs]
  rw [huni, hip]
  split_ifs <;> omega

/-- The truncated quotient by `10 ^ k` vanishes exactly when the magnitude
is below `10 ^ k`. -/
lemma tdiv_pow_eq_zero_iff (v : Int) (k : Nat) :
    v.tdiv (10 ^ k) = 0 ↔ v.natAbs < 10 ^ k := by
  rw [← Int.natAbs_eq_zero, Int.natAbs_tdiv]
  have hp : ((10 : Int) ^ k).natAbs = 10 ^ k := by
    rw [Int.natAbs_pow]
    rfl
  rw [hp]
  exact Nat.div_eq_zero_iff (by positivity)

lemma LONG_MAX_pos : 0 < LONG_MAX := by norm_num [LONG_MAX]

/-- `bc_sqrt` on a value comparing equal to zero installs the `_zero_`
singleton (stored scale 0, whatever scale was requested). -/
lemma bc_sqrt_zero_path (num : bc_num) (scale : Nat) (hz : num.value = 0) :
    bc_sqrt num scale = (true, _zero_) := by
  unfold bc_sqrt
  rw [if_neg (by rw [bc_compare_zero, cmp_lt_zero_iff]; omega),
    if_pos (by rw [bc_compare_zero, cmp_eq_zero_iff]; exact hz)]

/-- `bc_sqrt` on a value comparing equal to one installs the `_one_`
singleton (stored scale 0, whatever scale was requested). -/
lemma bc_sqrt_one_path (num : bc_num) (scale : Nat) (hone : num.value = 10 ^ num.scale) :
    bc_sqrt num scale = (true, _one_) := by
  have hnz : num.value ≠ 0 := by
    rw [hone]
    positivity
  unfold bc_sqrt
  rw [if_neg (by
      rw [bc_compare_zero, cmp_lt_zero_iff]
      rw [hone]
      exact not_lt.mpr (by positivity)),
    if_neg (by rw [bc_compare_zero, cmp_eq_zero_iff]; exact hnz),
    if_pos (by rw [bc_compare_one_eq_iff]; exact hone)]

/-- The general path of `bc_sqrt`: step the integer up by
`10 ^ (2 * rscale - n_scale)` and take the integer square root, storing at
`rscale = max scale n_scale`.  (The code's step-down branch is dead:
`rscale ≥ n_scale` makes the step amount non-negative.) -/
lemma bc_sqrt_general (num : bc_num) (scale : Nat) (h0 : 0 < num.value)
    (h1 : num.value ≠ 10 ^ num.scale) :
    bc_sqrt num scale =
      (true,
       ⟨Int.sqrt (num.value * 10 ^ (2 * max scale num.scale - num.scale)),
        max scale num.scale⟩) := by
  have hrs : num.scale ≤ max scale num.scale := le_max_right _ _
  unfold bc_sqrt
  rw [if_neg (by rw [bc_compare_zero, cmp_lt_zero_iff]; omega),
    if_neg (by rw [bc_compare_zero, cmp_eq_zero_iff]; omega),
    if_neg (by rw [bc_compare_one_eq_iff]; exact h1)]
  simp only
  set rs := max scale num.scale with hrs2
  rcases eq_or_ne ((num.scale : Int) + 2 * ((rs : Int) - (num.scale : Int))) 0 with hs | hs
  · have hz2 : 2 * rs - num.scale = 0 := by omega
    rw [if_neg (by omega), hz2, pow_zero, mul_one]
  · rw [if_pos hs, if_pos (by omega)]
    have ht : ((num.scale : Int) + 2 * ((rs : Int) - (num.scale : Int))).toNat =
        2 * rs - num.scale := by omega
    rw [ht]

/-- Decimal digit characters of a natural number, most significant digit
first, produced with structural fuel so it evaluates in the kernel.  The
fuel `n` itself always suffices since the argument shrinks by `/ 10`. -/
def natDecimalAux : Nat → Nat → List Char
  | 0, _ => []
  | fuel + 1, n =>
    if n = 0 then []
    else natDecimalAux fuel (n / 10) ++ [Nat.digitChar (n % 10)]

/-- The decimal digit string of `n`; `"0"` for 0, as gmp prints it. -/
def natDecimal (n : Nat) : List Char :=
  if n = 0 then ['0'] else natDecimalAux n n

/-- Output of `gmp_asprintf ("%Zd", v)`. -/
def decString (v : Int) : List Char :=
  if v < 0 then '-' :: natDecimal v.natAbs else natDecimal v.natAbs

/-- `bc_num_length`: significant digits of the integer, sign excluded. -/
def bc_num_length (num : bc_num) : Nat := (natDecimal num.value.natAbs).length

/-- `bc_num2str`: sign, then the digit string split `n_scale` digits from
the right; when the digit string is no longer than the scale, a bare
point followed by left zero padding.  (With `n_len` digits and
`n_len = scale` the integer part is empty: values below 1 print with no
leading zero, POSIX-bc style.) -/
def bc_num2str (num : bc_num) : List Char :=
  let signch := bc_is_neg num
  let digitsOnly := natDecimal num.value.natAbs
  let n_len := digitsOnly.length
  let body :=
    if n_len ≥ num.scale then
      digitsOnly.take (n_len - num.scale) ++
        (if num.scale > 0 then '.' :: digitsOnly.drop (n_len - num.scale) else [])
    else
      '.' :: (List.replicate (num.scale - n_len) '0' ++ digitsOnly)
  if signch then '-' :: body else body

/-- Numeric value of a digit string, as `gmp_sscanf ("%Zd")` reads it
(0 when there are no digits). -/
def parseDigitsNat (l : List Char) : Nat :=
  l.foldl (fun a c => 10 * a + (c.toNat - 48)) 0

/-- `gmp_sscanf ("%Zd")` on a possibly-signed digit string; 0 when the
scan fails (empty input), matching the freshly initialized `mpz`. -/
def scanZd (cs : List Char) : Int :=
  match cs with
  | c :: rest =>
    if c = '-' then -(parseDigitsNat rest : Int) else (parseDigitsNat (c :: rest) : Int)
  | [] => 0

/-- The pointer step `if ((*ptr == '+') || (*ptr == '-')) ptr++`. -/
def stripSign (str : List Char) : List Char :=
  match str with
  | c :: r => if c = '+' ∨ c = '-' then r else c :: r
  | [] => []

/-- The pointer step `if (*ptr == '.') ptr++`. -/
def stripDot (l : List Char) : List Char :=
  match l with
  | c :: r => if c = '.' then r else c :: r
  | [] => []

/-- The sign character kept by the copy phase (`if (*ptr == '-') ...`). -/
def signOf (str : List Char) : List Char :=
  match str with
  | c :: _ => if c = '-' then ['-'] else []
  | [] => []

/-- `bc_str2num`: validate (optional sign, leading zeros skipped, digits,
optional point, digits), rejecting to `_zero_` on malformed input;
otherwise reread the same characters, keeping at most `scale` fraction
digits, and scan them as one integer.  Both passes of the C code walk the
string with identical predicates, shared here. -/
def bc_str2num (str : List Char) (scale : Nat) : bc_num :=
  let s1 := stripSign str
  let s2 := s1.dropWhile (fun c => c = '0')
  let intDigits := s2.takeWhile Char.isDigit
  let s3 := s2.dropWhile Char.isDigit
  let s4 := stripDot s3
  let fracDigits := s4.takeWhile Char.isDigit
  let s5 := s4.dropWhile Char.isDigit
  if s5 ≠ [] ∨ intDigits.length + fracDigits.length = 0 then _zero_
  else
    let strscale := min fracDigits.length scale
    let nptr := signOf str ++ intDigits ++ fracDigits.take strscale
    ⟨scanZd nptr, strscale⟩

/-- Each digit character emitted for a digit below 10 is a decimal digit
character. -/
lemma digitChar_isDigit (m : Nat) (h : m < 10) : (Nat.digitChar m).isDigit = true := by
  interval_cases m <;> decide

/-- The numeric value of a digit character below 10. -/
lemma digitChar_val (m : Nat) (h : m < 10) : (Nat.digitChar m).toNat - 48 = m := by
  interval_cases m <;> decide

lemma natDecimalAux_all_digits (fuel n : Nat) :
    ∀ c ∈ natDecimalAux fuel n, c.isDigit = true := by
  induction fuel generalizing n with
  | zero => intro c hc; simp [natDecimalAux] at hc
  | succ fuel ih =>
    intro c hc
    unfold natDecimalAux at hc
    by_cases hn : n = 0
    · simp [hn] at hc
    · rw [if_neg hn] at hc
      rcases List.mem_append.mp hc with hc | hc
      · exact ih (n / 10) c hc
      · rcases List.mem_singleton.mp hc with rfl
        exact digitChar_isDigit _ (Nat.mod_lt n (by norm_num))

lemma natDecimal_all_digits (n : Nat) : ∀ c ∈ natDecimal n, c.isDigit = true := by
  unfold natDecimal
  by_cases hn : n = 0
  · simp [hn]
  · rw [if_neg hn]
    exact natDecimalAux_all_digits n n

lemma natDecimal_ne_nil (n : Nat) : natDecimal n ≠ [] := by
  unfold natDecimal
  by_cases hn : n = 0
  · simp [hn]
  · rw [if_neg hn]
    obtain ⟨fuel, hfuel⟩ : ∃ f, n = f + 1 := ⟨n - 1, by omega⟩
    rw [hfuel]
    unfold natDecimalAux
    rw [if_neg (by omega)]
    simp

/-- Closed form of `bc_num2str`: sign, integer digits, then point plus
left-zero-padded fraction digits.  Both branches of the code collapse to
this one expression. -/
lemma bc_num2str_eq (num : bc_num) :
    bc_num2str num =
      (if num.value < 0 then ['-'] else []) ++
      (natDecimal num.value.natAbs).take ((natDecimal num.value.natAbs).length - num.scale) ++
      (if 0 < num.scale then
        '.' :: (List.replicate (num.scale - (natDecimal num.value.natAbs).length) '0' ++
          (natDecimal num.value.natAbs).drop
            ((natDecimal num.value.natAbs).length - num.scale))
       else []) := by
  set ds := natDecimal num.value.natAbs with hds
  set L := ds.length with hL
  unfold bc_num2str
  simp only [← hds, ← hL]
  have hbody : (if L ≥ num.scale then
        ds.take (L - num.scale) ++
          (if num.scale > 0 then '.' :: ds.drop (L - num.scale) else [])
      else '.' :: (List.replicate (num.scale - L) '0' ++ ds)) =
      ds.take (L - num.scale) ++
        (if 0 < num.scale then
          '.' :: (List.replicate (num.scale - L) '0' ++ ds.drop (L - num.scale))
         else []) := by
    rcases le_or_lt num.scale L with hls | hls
    · rw [if_pos hls]
      have hrep : List.replicate (num.scale - L) '0' = ([] : List Char) := by
        rw [Nat.sub_eq_zero_of_le hls, List.replicate_zero]
      rw [hrep, List.nil_append]
    · have ht0 : L - num.scale = 0 := by omega
      rw [if_neg (by omega), if_pos (by omega), ht0, List.take_zero, List.drop_zero,
        List.nil_append]
  rw [hbody]
  rcases lt_or_ge num.value 0 with hneg | hneg
  · rw [if_pos (by simp [bc_is_neg, hneg]), if_pos hneg]
    rfl
  · have hnn : ¬ num.value < 0 := not_lt.mpr hneg
    rw [if_neg (show ¬ (bc_is_neg num = true) by simp [bc_is_neg, hnn]), if_neg hnn,
      List.nil_append]

/-! Correspondence between the decimal conversions and `Nat.digits`. -/

lemma parseDigitsNat_from (a : Nat) (l : List Char) :
    l.foldl (fun x c => 10 * x + (c.toNat - 48)) a = a * 10 ^ l.length + parseDigitsNat l := by
  induction l generalizing a with
  | nil => simp [parseDigitsNat]
  | cons c t ih =>
    have hP : parseDigitsNat (c :: t) =
        (10 * 0 + (c.toNat - 48)) * 10 ^ t.length + parseDigitsNat t := by
      show List.foldl (fun x c => 10 * x + (c.toNat - 48)) 0 (c :: t) = _
      rw [List.foldl_cons]
      exact ih _
    rw [List.foldl_cons, ih _, hP, List.length_cons]
    ring

lemma parseDigitsNat_append (A B : List Char) :
    parseDigitsNat (A ++ B) = parseDigitsNat A * 10 ^ B.length + parseDigitsNat B := by
  unfold parseDigitsNat
  rw [List.foldl_append]
  rw [show (A.foldl (fun x c => 10 * x + (c.toNat - 48)) 0) = parseDigitsNat A from rfl]
  exact parseDigitsNat_from _ B

lemma parseDigitsNat_replicate_zero (k : Nat) :
    parseDigitsNat (List.replicate k '0') = 0 := by
  induction k with
  | zero => rfl
  | succ k ih =>
    rw [List.replicate_succ]
    show List.foldl (fun x c => 10 * x + (c.toNat - 48)) 0 ('0' :: List.replicate k '0') = 0
    rw [List.foldl_cons, parseDigitsNat_from, ih]
    simp [show (10 * 0 + ('0'.toNat - 48)) = 0 from by decide]

lemma parseDigitsNat_zeros_append (k : Nat) (B : List Char) :
    parseDigitsNat (List.replicate k '0' ++ B) = parseDigitsNat B := by
  rw [parseDigitsNat_append, parseDigitsNat_replicate_zero]
  ring

lemma parse_digits_reverse (L : List Nat) (h : ∀ d ∈ L, d < 10) :
    parseDigitsNat ((L.map Nat.digitChar).reverse) = Nat.ofDigits 10 L := by
  induction L with
  | nil => simp [parseDigitsNat, Nat.ofDigits_nil]
  | cons d T ih =>
    have hd : d < 10 := h d (List.mem_cons_self d T)
    have hT : ∀ x ∈ T, x < 10 := fun x hx => h x (List.mem_cons_of_mem _ hx)
    rw [List.map_cons, List.reverse_cons, parseDigitsNat_append, ih hT]
    have h1 : parseDigitsNat [Nat.digitChar d] = d := by
      unfold parseDigitsNat
      rw [List.foldl_cons, List.foldl_nil]
      rw [Nat.mul_zero, Nat.zero_add]
      exact digitChar_val d hd
    rw [h1, Nat.ofDigits_cons, List.length_singleton, pow_one]
    ring

lemma natDecimalAux_eq (fuel : Nat) : ∀ n, n ≤ fuel →
    natDecimalAux fuel n = ((Nat.digits 10 n).map Nat.digitChar).reverse := by
  induction fuel with
  | zero =>
    intro n hn
    interval_cases n
    simp [natDecimalAux]
  | succ fuel ih =>
    intro n hn
    unfold natDecimalAux
    by_cases hz : n = 0
    · simp [hz]
    · rw [if_neg hz, ih (n / 10) (by omega),
        Nat.digits_def' (by norm_num : (1 : ℕ) < 10) (Nat.pos_of_ne_zero hz),
        List.map_cons, List.reverse_cons]

lemma natDecimal_eq (n : Nat) (hn : n ≠ 0) :
    natDecimal n = ((Nat.digits 10 n).map Nat.digitChar).reverse := by
  unfold natDecimal
  rw [if_neg hn]
  exact natDecimalAux_eq n n le_rfl

lemma parse_natDecimal (n : Nat) : parseDigitsNat (natDecimal n) = n := by
  by_cases hn : n = 0
  · subst hn
    rfl
  · rw [natDecimal_eq n hn,
      parse_digits_reverse _ (fun d hd => Nat.digits_lt_base (by norm_num) hd),
      Nat.ofDigits_digits]

/-- For nonzero `n` the decimal string starts with a nonzero digit. -/
lemma natDecimal_head (n : Nat) (hn : n ≠ 0) :
    ∃ c t, natDecimal n = c :: t ∧ ¬ c = '0' ∧ c.isDigit = true := by
  have hne : Nat.digits 10 n ≠ [] := Nat.digits_ne_nil_iff_ne_zero.mpr hn
  have hsplit := List.dropLast_append_getLast hne
  obtain ⟨d, hd⟩ : ∃ d, (Nat.digits 10 n).getLast hne = d := ⟨_, rfl⟩
  rw [hd] at hsplit
  have hdz : d ≠ 0 := hd ▸ Nat.getLast_digit_ne_zero 10 hn
  have hdlt : d < 10 := hd ▸ Nat.digits_lt_base (by norm_num) (List.getLast_mem hne)
  refine ⟨Nat.digitChar d, ((Nat.digits 10 n).dropLast.map Nat.digitChar).reverse, ?_, ?_, ?_⟩
  · rw [natDecimal_eq n hn, ← hsplit, List.map_append, List.reverse_append]
    simp
  · interval_cases d
    · exact absurd rfl hdz
    all_goals decide
  · exact digitChar_isDigit d hdlt

/-! Evaluation lemmas for the two pointer walks of `bc_str2num`. -/

lemma digit_not_sign {c : Char} (h : c.isDigit = true) : ¬ (c = '+' ∨ c = '-') := by
  rintro (rfl | rfl) <;> simp at h

lemma digit_not_dot {c : Char} (h : c.isDigit = true) : ¬ c = '.' := by
  rintro rfl
  simp at h

lemma digit_not_dash {c : Char} (h : c.isDigit = true) : ¬ c = '-' := by
  rintro rfl
  simp at h

lemma digit_not_zero_char {c : Char} (h : c.isDigit = true) : c ≠ '0' ∨ c = '0' := by
  tauto

lemma takeWhile_append_stop {p : Char → Bool} (I : List Char) (d : Char) (rest : List Char)
    (hI : ∀ c ∈ I, p c = true) (hd : p d = false) :
    (I ++ d :: rest).takeWhile p = I ∧ (I ++ d :: rest).dropWhile p = d :: rest := by
  induction I with
  | nil => simp [List.takeWhile_cons, List.dropWhile_cons, hd]
  | cons c t ih =>
    have hc : p c = true := hI c (List.mem_cons_self c t)
    have ht : ∀ x ∈ t, p x = true := fun x hx => hI x (List.mem_cons_of_mem _ hx)
    obtain ⟨h1, h2⟩ := ih ht
    constructor
    · rw [List.cons_append, List.takeWhile_cons, if_pos hc, h1]
    · rw [List.cons_append, List.dropWhile_cons, if_pos hc, h2]

lemma takeWhile_all_of {p : Char → Bool} (F : List Char) (hF : ∀ c ∈ F, p c = true) :
    F.takeWhile p = F ∧ F.dropWhile p = [] := by
  induction F with
  | nil => simp
  | cons c t ih =>
    have hc : p c = true := hF c (List.mem_cons_self c t)
    have ht : ∀ x ∈ t, p x = true := fun x hx => hF x (List.mem_cons_of_mem _ hx)
    obtain ⟨h1, h2⟩ := ih ht
    constructor
    · rw [List.takeWhile_cons, if_pos hc, h1]
    · rw [List.dropWhile_cons, if_pos hc, h2]

lemma dropWhile_eq_self_of_head {p : Char → Bool} (l : List Char)
    (h : ∀ c, l.head? = some c → p c = false) :
    l.dropWhile p = l := by
  cases l with
  | nil => rfl
  | cons c t => rw [List.dropWhile_cons, if_neg (by rw [h c rfl]; simp)]

lemma scanZd_not_neg (l : List Char) (h : ∀ c, l.head? = some c → ¬ c = '-') :
    scanZd l = (parseDigitsNat l : Int) := by
  cases l with
  | nil => simp [scanZd, parseDigitsNat]
  | cons c t =>
    show (if c = '-' then -(parseDigitsNat t : Int) else (parseDigitsNat (c :: t) : Int)) =
      (parseDigitsNat (c :: t) : Int)
    rw [if_neg (h c rfl)]

/-- Evaluation of `bc_str2num` on a well-formed string with a decimal
point: optional sign, integer digits with no leading zero, a point, then
fraction digits.  The stored scale is `min (fraction length) scale` and
the integer read is the concatenation of the integer digits and the kept
fraction digits. -/
lemma str2num_eval_dot (neg : Bool) (I F : List Char) (s : Nat)
    (hI : ∀ c ∈ I, c.isDigit = true)
    (hF : ∀ c ∈ F, c.isDigit = true)
    (hIhead : ∀ c, I.head? = some c → ¬ c = '0')
    (hsum : 0 < I.length + F.length) :
    bc_str2num ((if neg then ['-'] else []) ++ (I ++ '.' :: F)) s =
      ⟨(if neg then -(parseDigitsNat (I ++ F.take (min F.length s)) : Int)
        else (parseDigitsNat (I ++ F.take (min F.length s)) : Int)),
       min F.length s⟩ := by
  have hA : stripSign ((if neg then ['-'] else []) ++ (I ++ '.' :: F)) = I ++ '.' :: F := by
    cases neg with
    | false =>
      cases I with
      | nil => simp [stripSign]
      | cons c t =>
        have hcs := digit_not_sign (hI c (List.mem_cons_self c t))
        simp [stripSign, hcs]
    | true => simp [stripSign]
  have hB : (I ++ '.' :: F).dropWhile (fun c => c = '0') = I ++ '.' :: F := by
    apply dropWhile_eq_self_of_head
    intro c hc
    cases I with
    | nil =>
      simp only [List.nil_append, List.head?_cons, Option.some_inj] at hc
      subst hc
      decide
    | cons a t =>
      simp only [List.cons_append, List.head?_cons, Option.some_inj] at hc
      subst hc
      simpa using hIhead _ rfl
  have hC := takeWhile_append_stop (p := Char.isDigit) I '.' F hI (by decide)
  have hE : stripDot ('.' :: F) = F := by simp [stripDot]
  have hF2 := takeWhile_all_of (p := Char.isDigit) F hF
  have hS : signOf ((if neg then ['-'] else []) ++ (I ++ '.' :: F)) =
      (if neg then ['-'] else []) := by
    cases neg with
    | false =>
      cases I with
      | nil => simp [signOf]
      | cons c t =>
        have hcd := digit_not_dash (hI c (List.mem_cons_self c t))
        simp [signOf, hcd]
    | true => simp [signOf]
  have hhead : ∀ c, (I ++ F.take (min F.length s)).head? = some c → ¬ c = '-' := by
    intro c hc
    have hmem : c ∈ I ++ F.take (min F.length s) := List.mem_of_mem_head? hc
    rcases List.mem_append.mp hmem with h | h
    · exact digit_not_dash (hI c h)
    · exact digit_not_dash (hF c (List.mem_of_mem_take h))
  unfold bc_str2num
  simp only [hA, hB, hC.1, hC.2, hE, hF2.1, hF2.2, hS]
  rw [if_neg (by
    intro hcon
    rcases hcon with h | h
    · exact h rfl
    · omega)]
  cases neg with
  | false =>
    simp only [Bool.false_eq_true, if_false, List.nil_append]
    rw [scanZd_not_neg _ hhead]
  | true =>
    show (⟨scanZd ('-' :: (I ++ F.take (min F.length s))), min F.length s⟩ : bc_num) = _
    simp [scanZd]

/-- Evaluation of `bc_str2num` on a well-formed integer string: optional
sign then integer digits with no leading zero.  The stored scale is 0. -/
lemma str2num_eval_int (neg : Bool) (I : List Char) (s : Nat)
    (hI : ∀ c ∈ I, c.isDigit = true)
    (hIhead : ∀ c, I.head? = some c → ¬ c = '0')
    (hne : I ≠ []) :
    bc_str2num ((if neg then ['-'] else []) ++ I) s =
      ⟨(if neg then -(parseDigitsNat I : Int) else (parseDigitsNat I : Int)), 0⟩ := by
  have hA : stripSign ((if neg then ['-'] else []) ++ I) = I := by
    cases neg with
    | false =>
      cases I with
      | nil => simp [stripSign]
      | cons c t =>
        have hcs := digit_not_sign (hI c (List.mem_cons_self c t))
        simp [stripSign, hcs]
    | true => simp [stripSign]
  have hB : I.dropWhile (fun c => c = '0') = I := by
    apply dropWhile_eq_self_of_head
    intro c hc
    simpa using hIhead c hc
  have hC := takeWhile_all_of (p := Char.isDigit) I hI
  have hS : signOf ((if neg then ['-'] else []) ++ I) = (if neg then ['-'] else []) := by
    cases neg with
    | false =>
      cases I with
      | nil => exact absurd rfl hne
      | cons c t =>
        have hcd := digit_not_dash (hI c (List.mem_cons_self c t))
        simp [signOf, hcd]
    | true => simp [signOf]
  have hhead : ∀ c, (I ++ ([] : List Char).take (min 0 s)).head? = some c → ¬ c = '-' := by
    intro c hc
    have hmem : c ∈ I ++ ([] : List Char).take (min 0 s) := List.mem_of_mem_head? hc
    rcases List.mem_append.mp hmem with h | h
    · exact digit_not_dash (hI c h)
    · simp at h
  unfold bc_str2num
  simp only [hA, hB, hC.1, hC.2]
  rw [show stripDot [] = ([] : List Char) from rfl]
  simp only [List.takeWhile_nil, List.dropWhile_nil, hS]
  rw [if_neg (by
    intro hcon
    rcases hcon with h | h
    · exact h rfl
    · rw [List.length_nil] at h
      exact hne (List.length_eq_zero.mp (by omega)))]
  simp only [List.length_nil, Nat.min_zero, Nat.zero_min, List.take_nil, List.append_nil]
  cases neg with
  | false =>
    simp only [Bool.false_eq_true, if_false, List.nil_append]
    rw [scanZd_not_neg _ (by
      intro c hc
      exact digit_not_dash (hI c (List.mem_of_mem_head? hc)))]
  | true =>
    show (⟨scanZd ('-' :: I), 0⟩ : bc_num) = _
    simp [scanZd]

/-- The round trip: formatting any number and reparsing it at its own
scale restores the number exactly, value and stored scale. -/
lemma str2num_num2str (v : Int) (s : Nat) :
    bc_str2num (bc_num2str ⟨v, s⟩) s = ⟨v, s⟩ := by
  by_cases h00 : v = 0 ∧ s = 0
  · obtain ⟨rfl, rfl⟩ := h00
    decide
  · have hds := natDecimal_all_digits v.natAbs
    set ds := natDecimal v.natAbs with hdsdef
    set L := ds.length with hLdef
    have hiff : ((if v < 0 then ['-'] else []) : List Char) =
        (if (decide (v < 0) : Bool) then ['-'] else []) := by
      by_cases h : v < 0 <;> simp [h]
    have hval : (if (decide (v < 0) : Bool) then -(v.natAbs : Int) else (v.natAbs : Int))
        = v := by
      by_cases h : v < 0
      · simp only [h, decide_True, if_true]
        rw [Int.ofNat_natAbs_of_nonpos (le_of_lt h), neg_neg]
      · simp only [h, decide_False, if_false]
        exact Int.natAbs_of_nonneg (not_lt.mp h)
    rcases Nat.eq_zero_or_pos s with hs | hs
    · -- s = 0 (and then v ≠ 0): the formatted text is sign ++ digits.
      have hv : v ≠ 0 := fun hv => h00 ⟨hv, hs⟩
      obtain ⟨d, t, hct, hd0, hdd⟩ := natDecimal_head v.natAbs (Int.natAbs_ne_zero.mpr hv)
      rw [← hdsdef] at hct
      have hstr : bc_num2str ⟨v, s⟩ =
          (if (decide (v < 0) : Bool) then ['-'] else []) ++ ds := by
        rw [bc_num2str_eq]
        simp only [← hdsdef, ← hLdef, hs]
        rw [Nat.sub_zero, if_neg (lt_irrefl 0), List.append_nil, List.take_length, hiff]
      rw [hstr, str2num_eval_int (decide (v < 0)) ds s hds
        (by
          intro c hc
          rw [hct] at hc
          simp only [List.head?_cons, Option.some_inj] at hc
          subst hc
          exact hd0)
        (by rw [hct]; simp)]
      rw [hdsdef, parse_natDecimal, hval, hs]
    · -- s > 0: the formatted text is sign ++ I ++ '.' :: F.
      set I0 := ds.take (L - s) with hI0def
      set F0 := List.replicate (s - L) '0' ++ ds.drop (L - s) with hF0def
      have hlF : F0.length = s := by
        rw [hF0def, List.length_append, List.length_replicate, List.length_drop, ← hLdef]
        have hL1 : 1 ≤ L := by
          rw [hLdef]
          cases hh : ds with
          | nil => exact absurd hh (natDecimal_ne_nil _)
          | cons a b => simp [hh]
        omega
      have hstr : bc_num2str ⟨v, s⟩ =
          (if (decide (v < 0) : Bool) then ['-'] else []) ++ (I0 ++ '.' :: F0) := by
        rw [bc_num2str_eq]
        simp only [← hdsdef, ← hLdef, ← hI0def]
        rw [if_pos hs, hiff, List.append_assoc]
      have hIdig : ∀ c ∈ I0, c.isDigit = true := by
        intro c hc
        exact hds c (List.mem_of_mem_take hc)
      have hFdig : ∀ c ∈ F0, c.isDigit = true := by
        intro c hc
        rcases List.mem_append.mp hc with h | h
        · rw [List.eq_of_mem_replicate h]
          decide
        · exact hds c (List.mem_of_mem_drop h)
      have hIhead : ∀ c, I0.head? = some c → ¬ c = '0' := by
        intro c hc
        rcases le_or_lt L s with hLs | hLs
        · rw [hI0def, Nat.sub_eq_zero_of_le hLs] at hc
          simp at hc
        · have hv : v ≠ 0 := by
            intro hv0
            have : ds = ['0'] := by rw [hdsdef, hv0]; rfl
            rw [hLdef, this] at hLs
            simp at hLs
            omega
          obtain ⟨d, t, hct, hd0, hdd⟩ := natDecimal_head v.natAbs (Int.natAbs_ne_zero.mpr hv)
          rw [← hdsdef] at hct
          obtain ⟨k, hk⟩ : ∃ k, L - s = k + 1 := ⟨L - s - 1, by omega⟩
          rw [hI0def, hct, hk, List.take_succ_cons] at hc
          simp only [List.head?_cons, Option.some_inj] at hc
          subst hc
          exact hd0
      have hsum : 0 < I0.length + F0.length := by
        rw [hlF]
        omega
      rw [hstr, str2num_eval_dot (decide (v < 0)) I0 F0 s hIdig hFdig hIhead hsum]
      have htake : F0.take (min F0.length s) = F0 := by
        rw [hlF, Nat.min_self, ← hlF, List.take_length]
      have hparse : parseDigitsNat (I0 ++ F0) = v.natAbs := by
        rcases le_or_lt s L with hLs | hLs
        · rw [hI0def, hF0def, Nat.sub_eq_zero_of_le hLs, List.replicate_zero,
            List.nil_append, List.take_append_drop, hdsdef, parse_natDecimal]
        · rw [hI0def, hF0def]
          have h1 : L - s = 0 := by omega
          rw [h1, List.take_zero, List.drop_zero, List.nil_append,
            parseDigitsNat_zeros_append, hdsdef, parse_natDecimal]
      rw [htake, hparse, hlF, Nat.min_self]
      rw [show (if (decide (v < 0) : Bool) then -(v.natAbs : Int) else ((v.natAbs : Nat) : Int))
          = v from hval]

/-! The POSIX base-B output routines (`bc_out_long`, `bc_out_num`). -/

/-- The digit alphabet used for bases up to 16. -/
def ref_str : List Char :=
  ['0', '1', '2', '3', '4', '5', '6', '7', '8', '9', 'A', 'B', 'C', 'D', 'E', 'F']

/-- `bc_out_long`: a multi-character digit.  One leading space when
requested, zero padding up to `size`, then the decimal text of `val`. -/
def bc_out_long (val : Int) (size : Nat) (space : Bool) : List Char :=
  let digits := decString val
  (if space then [' '] else []) ++ List.replicate (size - digits.length) '0' ++ digits

/-- The pointer step `if (*iptr == '-') iptr++` of the base-10 fast path
of `bc_out_num`. -/
def stripMinus (l : List Char) : List Char :=
  match l with
  | c :: r => if c = '-' then r else c :: r
  | [] => []

/-- The digit-extraction loop of `bc_out_num`: repeatedly
`bc_modulo`/`bc_divide` the (scale-0, non-negative) integer part by the
base, pushing each extracted digit on the stack.  The fuel `|m|`
suffices: each round divides the value by the base (at least 2). -/
def _bc_digit_stack : Nat → Int → Int → List Int → List Int
  | 0, _, _, stack => stack
  | fuel + 1, m, b, stack =>
    if m = 0 then stack
    else if b.natAbs ≤ 1 then stack
    else
      let d := bc_num2long (bc_modulo ⟨m, 0⟩ ⟨b, 0⟩ _zero_ 0).2
      _bc_digit_stack fuel ((bc_divide ⟨m, 0⟩ ⟨b, 0⟩ _zero_ 0).2).value b (d :: stack)

/-- Multiplying a scale-0 number by a scale-0 base at scale 0 is the
plain integer product. -/
lemma mul_base_scale0 (x : bc_num) (b : Int) (sc : Nat) (hx : x.scale = 0) :
    bc_multiply x ⟨b, 0⟩ sc = ⟨x.value * b, 0⟩ := by
  unfold bc_multiply
  simp [hx]

/-- A number whose digit string fits in `k` characters is below `10^k`. -/
lemma natDecimal_length_le (m k : Nat) (h : (natDecimal m).length ≤ k) : m < 10 ^ k := by
  by_cases hm : m = 0
  · subst hm
    positivity
  · rw [natDecimal_eq m hm, List.length_reverse, List.length_map] at h
    exact lt_of_lt_of_le (Nat.lt_base_pow_length_digits (by norm_num))
      (Nat.pow_le_pow_right (by norm_num) h)

/-- The fraction loop of `bc_out_num`: multiply the remaining fraction by
the base at working scale `n_scale`, emit the integer part as a digit,
subtract it, and advance the counter `t_num` until its digit count
exceeds `n_scale`.  The loop terminates only for bases of magnitude at
least 2 and a nonzero scale-0 counter, which is what `bc_out_num` always
supplies; the extra guards make the model total. -/
def _bc_frac_loop (frac_part : bc_num) (b : Int) (t_num : bc_num) (nscale ix : Nat)
    (obase : Nat) (pre_space : Bool) : List Char :=
  if bc_num_length t_num > nscale then []
  else if b.natAbs ≤ 1 ∨ t_num.value = 0 ∨ t_num.scale ≠ 0 then []
  else
    let frac2 := bc_multiply frac_part ⟨b, 0⟩ nscale
    let fdigit := bc_num2long frac2
    let int_part := bc_int2num fdigit
    let frac3 := bc_sub frac2 int_part 0
    let chars := if obase ≤ 16 then [ref_str.getD fdigit.toNat '0']
                 else bc_out_long fdigit ix pre_space
    chars ++ _bc_frac_loop frac3 b (bc_multiply t_num ⟨b, 0⟩ 0) nscale ix obase
      (if obase ≤ 16 then pre_space else true)
termination_by 10 ^ nscale - t_num.value.natAbs
decreasing_by
  rename_i h1 h2
  push_neg at h2
  obtain ⟨hb, hv, hsc⟩ := h2
  rw [mul_base_scale0 _ _ _ hsc]
  simp only [Int.natAbs_mul]
  have ha : t_num.value.natAbs < 10 ^ nscale :=
    natDecimal_length_le _ _ (not_lt.mp h1)
  refine Nat.sub_lt_sub_left ha ?_
  have hvpos : 0 < t_num.value.natAbs := Int.natAbs_pos.mpr hv
  exact (Nat.lt_mul_iff_one_lt_right hvpos).mpr (by omega)

/-- `bc_out_num`: sign, then `'0'` for zero, the `bc_num2str` fast path
for base 10, and otherwise the stacked integer digits followed by the
fraction expansion.  For bases up to 16 digits map through `ref_str`;
above 16 each digit goes through `bc_out_long` with width `ix` (the
length of `base - 1` printed in decimal) and a space before every
integer-part digit. -/
def bc_out_num (num : bc_num) (o_base : Nat) (leading_zero : Bool) : List Char :=
  let signPart : List Char := if bc_is_neg num then ['-'] else []
  if bc_is_zero num then signPart ++ ['0']
  else if o_base = 10 then
    signPart ++ stripMinus (bc_num2str num)
  else
    let special : List Char := if leading_zero ∧ bc_is_zero num then ['0'] else []
    let int_part0 := (bc_divide num _one_ _zero_ 0).2
    let frac_part0 := bc_sub num int_part0 0
    let int_part : bc_num := ⟨|int_part0.value|, int_part0.scale⟩
    let frac_part : bc_num := ⟨|frac_part0.value|, frac_part0.scale⟩
    let base := bc_int2num (o_base : Int)
    let max_o_digit := bc_int2num ((o_base : Int) - 1)
    let ix := (bc_num2str max_o_digit).length
    let digitsStack := _bc_digit_stack int_part.value.natAbs int_part.value base.value []
    let intOut := (digitsStack.map
      (fun d => if o_base ≤ 16 then [ref_str.getD d.toNat '0']
                else bc_out_long d ix true)).join
    let fracOut := if num.scale > 0 then
        '.' :: _bc_frac_loop frac_part base.value _one_ num.scale ix o_base false
      else []
    signPart ++ special ++ intOut ++ fracOut

/-- Digits below the base fit a host long when the base does. -/
lemma num2long_small (d : Nat) (hd : d < 2 ^ 63) : bc_num2long ⟨(d : Int), 0⟩ = d := by
  have hL : LONG_MAX = 2 ^ 63 - 1 := rfl
  have hp : ((2 : Int) ^ 63) = ((2 ^ 63 : Nat) : Int) := by norm_num
  unfold bc_num2long
  simp only [gt_iff_lt, lt_irrefl, if_false]
  rw [if_neg (by rw [hL, hp]; omega), if_neg (by rw [hL, hp]; omega)]

/-- The digit-extraction loop agrees with `Nat.digits`: for a
non-negative integer part and a base `2 ≤ b ≤ 2^63`, the stack read top
to bottom is the base-`b` digit string, most significant first. -/
lemma digit_stack_spec (b : Nat) (hb : 2 ≤ b) (hb64 : b ≤ 2 ^ 63) :
    ∀ (fuel m : Nat), m ≤ fuel → ∀ stack,
      _bc_digit_stack fuel (m : Int) (b : Int) stack =
        ((Nat.digits b m).map (fun d : Nat => (d : Int))).reverse ++ stack := by
  intro fuel
  induction fuel with
  | zero =>
    intro m hm stack
    interval_cases m
    simp [_bc_digit_stack]
  | succ fuel ih =>
    intro m hm stack
    unfold _bc_digit_stack
    by_cases hm0 : m = 0
    · simp [hm0]
    · rw [if_neg (by exact_mod_cast hm0), if_neg (by rw [Int.natAbs_ofNat]; omega)]
      have hdiv : (bc_divide ⟨(m : Int), 0⟩ ⟨(b : Int), 0⟩ _zero_ 0).2 =
          ⟨((m / b : Nat) : Int), 0⟩ := by
        unfold bc_divide
        rw [if_neg (by simp [bc_is_zero]; omega)]
        norm_num
        exact Int.tdiv_eq_ediv (by positivity) (by positivity)
      have hmod : (bc_modulo ⟨(m : Int), 0⟩ ⟨(b : Int), 0⟩ _zero_ 0).2 =
          ⟨((m % b : Nat) : Int), 0⟩ := by
        unfold bc_modulo bc_divmod
        rw [if_neg (by simp [bc_is_zero]; omega)]
        simp only [hdiv]
        rw [mul_base_scale0 _ _ _ rfl, bc_sub_eq]
        norm_num
        rw [Int.emod_def]
        ring
      rw [hmod, num2long_small (m % b) (lt_of_lt_of_le (Nat.mod_lt m (by omega)) (by omega)),
        hdiv]
      rw [ih (m / b) (by
        have : m / b < m := Nat.div_lt_self (by omega) (by omega)
        omega) (((m % b : Nat) : Int) :: stack)]
      rw [Nat.digits_def' (by omega : 1 < b) (by omega : 0 < m), List.map_cons,
        List.reverse_cons, List.append_assoc, List.singleton_append]

/-- `bc_divide (num, _one_, 0)` extracts the truncated integer part at
scale 0. -/
lemma bc_divide_by_one (num : bc_num) :
    (bc_divide num _one_ _zero_ 0).2 = ⟨num.value.tdiv (10 ^ num.scale), 0⟩ := by
  unfold bc_divide
  rw [if_neg (by decide)]
  rcases Nat.eq_zero_or_pos num.scale with hs | hs
  · simp [_one_, hs]
  · simp only [_one_]
    rw [if_pos (by omega), if_neg (by omega)]
    simp only [Int.tdiv_one]
    rw [bc_num.mk.injEq]
    refine ⟨?_, rfl⟩
    congr 1
    congr 1
    omega

/-- Subtracting the scale-0 integer part from a number. -/
lemma sub_intpart (num : bc_num) (ip : Int) :
    bc_sub num ⟨ip, 0⟩ 0 = ⟨num.value - ip * 10 ^ num.scale, num.scale⟩ := by
  rw [bc_sub_eq]
  simp

lemma decString_ofNat (k : Nat) : decString ((k : Nat) : Int) = natDecimal k := by
  unfold decString
  rw [if_neg (by omega), Int.natAbs_ofNat]

lemma bc_num2str_nat (k : Nat) : bc_num2str ⟨((k : Nat) : Int), 0⟩ = natDecimal k := by
  rw [bc_num2str_eq]
  simp only
  rw [if_neg (by omega), if_neg (lt_irrefl 0), List.append_nil, List.nil_append,
    Int.natAbs_ofNat, Nat.sub_zero, List.take_length]

lemma out_long_nat (d : Nat) (ix : Nat) :
    bc_out_long ((d : Nat) : Int) ix true =
      ' ' :: (List.replicate (ix - (natDecimal d).length) '0' ++ natDecimal d) := by
  unfold bc_out_long
  rw [decString_ofNat]
  rfl

/-!
Result-slot discipline.  Every arithmetic routine of number.c reads its
operand cells completely before `bc_free_num` releases the result slot's
previous occupant and the new value is installed (`bc_divmod` writes the
remainder slot at line 458 and the quotient slot afterwards, lines
463-464, with all operand reads earlier).  A store maps slot handles to
numbers; each wrapper below snapshots the operands at entry and then
installs, mirroring that order, so aliasing a result slot with an operand
handle cannot disturb the computation.
-/

/-- A store of number slots; a C `bc_num *` result argument is a handle
into it. -/
def Store := Nat → bc_num

/-- Install a value into one slot. -/
def upd (σ : Store) (h : Nat) (v : bc_num) : Store :=
  fun k => if k = h then v else σ k

lemma upd_same (σ : Store) (h : Nat) (v : bc_num) : upd σ h v h = v := by
  unfold upd
  rw [if_pos rfl]

lemma upd_other (σ : Store) (h k : Nat) (v : bc_num) (hk : k ≠ h) : upd σ h v k = σ k := by
  unfold upd
  rw [if_neg hk]

/-- `bc_add` at the store level. -/
def bc_add_op (σ : Store) (h1 h2 hr : Nat) (scale_min : Nat) : Store :=
  upd σ hr (bc_add (σ h1) (σ h2) scale_min)

/-- `bc_sub` at the store level. -/
def bc_sub_op (σ : Store) (h1 h2 hr : Nat) (scale_min : Nat) : Store :=
  upd σ hr (bc_sub (σ h1) (σ h2) scale_min)

/-- `bc_multiply` at the store level. -/
def bc_multiply_op (σ : Store) (h1 h2 hr : Nat) (scale : Nat) : Store :=
  upd σ hr (bc_multiply (σ h1) (σ h2) scale)

/-- `bc_divide` at the store level. -/
def bc_divide_op (σ : Store) (h1 h2 hr : Nat) (scale : Nat) : Int × Store :=
  let r := bc_divide (σ h1) (σ h2) (σ hr) scale
  (r.1, upd σ hr r.2)

/-- `bc_divmod` at the store level: remainder installed first, then the
quotient slot when one is supplied, as in the C code. -/
def bc_divmod_op (σ : Store) (h1 h2 : Nat) (hq : Option Nat) (hr : Nat) (scale : Nat) :
    Int × Store :=
  let r := bc_divmod (σ h1) (σ h2) (hq.map σ) (σ hr) scale
  let σ1 := upd σ hr r.2.2
  let σ2 := match hq with
            | some h => upd σ1 h ((r.2.1).getD (σ h))
            | none => σ1
  (r.1, σ2)

/-- `bc_modulo` at the store level. -/
def bc_modulo_op (σ : Store) (h1 h2 hr : Nat) (scale : Nat) : Int × Store :=
  let r := bc_modulo (σ h1) (σ h2) (σ hr) scale
  (r.1, upd σ hr r.2)

/-- `bc_raisemod` at the store level. -/
def bc_raisemod_op (σ : Store) (hb he hm hr : Nat) (scale : Nat) : Int × Store :=
  let r := bc_raisemod (σ hb) (σ he) (σ hm) (σ hr) scale
  (r.1, upd σ hr r.2)

/-- `bc_raise` at the store level. -/
def bc_raise_op (σ : Store) (h1 h2 hr : Nat) (scale : Nat) : Store :=
  upd σ hr (bc_raise (σ h1) (σ h2) (σ hr) scale)

/-- C1: for every `n1`, every nonzero `n2` and every scale, `bc_divmod`
returns 0 and yields a quotient stored at the requested scale and a
remainder stored at `rscale = max n1.scale (n2.scale + scale)` such that
`n1 = q * n2 + r` holds exactly over the rationals. -/
theorem claim_C1_divmod_identity (n1 n2 : bc_num) (scale : Nat) (oq orm : bc_num)
    (h : n2.value ≠ 0) :
    ∃ q r, bc_divmod n1 n2 (some oq) orm scale = (0, some q, r) ∧
      q.scale = scale ∧
      r.scale = max n1.scale (n2.scale + scale) ∧
      toRat n1 = toRat q * toRat n2 + toRat r := by
  have hq := bc_divide_ok n1 n2 _zero_ scale h
  set q := (bc_divide n1 n2 _zero_ scale).2 with hqdef
  have hqs : q.scale = scale := hq.2
  set rscale := max n1.scale (n2.scale + scale) with hrs
  have hcond : q.scale + n2.scale ≤ max rscale (max q.scale n2.scale) := by
    rw [hqs, hrs]; omega
  refine ⟨q, bc_sub n1 (bc_multiply q n2 rscale) rscale, ?_, hqs, ?_, ?_⟩
  · unfold bc_divmod
    rw [if_neg (by simp [bc_is_zero, h])]
    rfl
  · rw [bc_sub_eq]
    rw [bc_multiply_exact q n2 rscale hcond]
    simp only [hqs, hrs]
    omega
  · rw [toRat_bc_sub, toRat_bc_multiply_exact q n2 rscale hcond]
    ring

theorem claim_C1_divmod_identity_witness :
    ((⟨3, 0⟩ : bc_num).value ≠ 0) ∧
      (∃ q r, bc_divmod ⟨10, 0⟩ ⟨3, 0⟩ (some _zero_) _zero_ 0 = (0, some q, r) ∧
        q.scale = 0 ∧
        r.scale = max (⟨10, 0⟩ : bc_num).scale ((⟨3, 0⟩ : bc_num).scale + 0) ∧
        toRat ⟨10, 0⟩ = toRat q * toRat ⟨3, 0⟩ + toRat r) :=
  ⟨by decide, claim_C1_divmod_identity ⟨10, 0⟩ ⟨3, 0⟩ 0 _zero_ _zero_ (by decide)⟩

/-- C2: `bc_multiply` stores scale
`min (n1.scale + n2.scale) (max scale (max n1.scale n2.scale))`; the
stored integer is the exact product truncated toward zero by
`10 ^ (full - result_scale)` when `full` exceeds `result_scale`, and the
exact product otherwise; the represented value is the exact rational
product truncated toward zero at `result_scale` decimal digits. -/
theorem claim_C2_multiply_scale_truncation (n1 n2 : bc_num) (scale : Nat) :
    (bc_multiply n1 n2 scale).scale =
      min (n1.scale + n2.scale) (max scale (max n1.scale n2.scale)) ∧
    (bc_multiply n1 n2 scale).value =
      (if min (n1.scale + n2.scale) (max scale (max n1.scale n2.scale)) <
          n1.scale + n2.scale then
        (n1.value * n2.value).tdiv
          (10 ^ (n1.scale + n2.scale -
            min (n1.scale + n2.scale) (max scale (max n1.scale n2.scale))))
      else n1.value * n2.value) ∧
    toRat (bc_multiply n1 n2 scale) =
      (ratTrunc (toRat n1 * toRat n2 *
          10 ^ min (n1.scale + n2.scale) (max scale (max n1.scale n2.scale))) : ℚ) /
        10 ^ min (n1.scale + n2.scale) (max scale (max n1.scale n2.scale)) := by
  set ps := min (n1.scale + n2.scale) (max scale (max n1.scale n2.scale)) with hps
  have hple : ps ≤ n1.scale + n2.scale := by rw [hps]; omega
  have hscale : (bc_multiply n1 n2 scale).scale = ps := rfl
  have hval := bc_multiply_val n1 n2 scale
  refine ⟨hscale, ?_, ?_⟩
  · rw [hval]
    rcases lt_or_ge ps (n1.scale + n2.scale) with h | h
    · rw [if_pos h]
    · have e : n1.scale + n2.scale - ps = 0 := by omega
      rw [if_neg (by omega), e, pow_zero, Int.tdiv_one]
  · have hprod : toRat n1 * toRat n2 * 10 ^ ps =
        ((n1.value * n2.value : ℤ) : ℚ) / 10 ^ (n1.scale + n2.scale - ps) := by
      unfold toRat
      push_cast
      rw [div_mul_div_comm, ← pow_add]
      rw [div_mul_eq_mul_div, div_eq_div_iff (by positivity) (by positivity)]
      have hexp : (10 : ℚ) ^ ps * 10 ^ (n1.scale + n2.scale - ps) =
          10 ^ (n1.scale + n2.scale) := by
        rw [← pow_add]
        congr 1
        omega
      rw [mul_assoc, hexp]
    rw [hprod, ratTrunc_intCast_div_pow]
    unfold toRat
    rw [hval, ← hps, hscale]

/-- C3: every failing call is atomic.  `bc_divide`, `bc_divmod` and
`bc_modulo` with a zero divisor, and `bc_raisemod` with a zero modulus or
a negative exponent, return -1; `bc_sqrt` on a negative number returns
false; in every such case the caller's result slots still hold exactly
what they held before the call. -/
theorem claim_C3_error_atomicity :
    (∀ (n1 n2 old : bc_num) (scale : Nat), n2.value = 0 →
      bc_divide n1 n2 old scale = (-1, old)) ∧
    (∀ (n1 n2 orm : bc_num) (oq : Option bc_num) (scale : Nat), n2.value = 0 →
      bc_divmod n1 n2 oq orm scale = (-1, oq, orm)) ∧
    (∀ (n1 n2 old : bc_num) (scale : Nat), n2.value = 0 →
      bc_modulo n1 n2 old scale = (-1, old)) ∧
    (∀ (b e m old : bc_num) (scale : Nat), m.value = 0 ∨ e.value < 0 →
      bc_raisemod b e m old scale = (-1, old)) ∧
    (∀ (n : bc_num) (scale : Nat), n.value < 0 →
      bc_sqrt n scale = (false, n)) := by
  refine ⟨?_, ?_, ?_, ?_, ?_⟩
  · intro n1 n2 old scale h
    unfold bc_divide
    rw [if_pos (by simp [bc_is_zero, h])]
  · intro n1 n2 orm oq scale h
    unfold bc_divmod
    rw [if_pos (by simp [bc_is_zero, h])]
  · intro n1 n2 old scale h
    unfold bc_modulo bc_divmod
    rw [if_pos (by simp [bc_is_zero, h])]
  · intro b e m old scale h
    unfold bc_raisemod
    rcases h with h | h
    · rw [if_pos (by simp [bc_is_zero, h])]
    · rcases eq_or_ne m.value 0 with hm | hm
      · rw [if_pos (by simp [bc_is_zero, hm])]
      · rw [if_neg (by simp [bc_is_zero, hm]), if_pos (by simp [bc_is_neg, h])]
  · intro n scale h
    unfold bc_sqrt
    rw [if_pos (by rw [bc_compare_zero, cmp_lt_zero_iff]; exact h)]

theorem claim_C3_error_atomicity_witness :
    bc_divide ⟨5, 1⟩ ⟨0, 2⟩ ⟨7, 3⟩ 4 = (-1, ⟨7, 3⟩) ∧
    bc_divmod ⟨5, 1⟩ ⟨0, 2⟩ (some ⟨8, 1⟩) ⟨7, 3⟩ 4 = (-1, some ⟨8, 1⟩, ⟨7, 3⟩) ∧
    bc_modulo ⟨5, 1⟩ ⟨0, 2⟩ ⟨7, 3⟩ 4 = (-1, ⟨7, 3⟩) ∧
    bc_raisemod ⟨2, 0⟩ ⟨3, 0⟩ ⟨0, 0⟩ ⟨7, 3⟩ 4 = (-1, ⟨7, 3⟩) ∧
    bc_raisemod ⟨2, 0⟩ ⟨-3, 0⟩ ⟨5, 0⟩ ⟨7, 3⟩ 4 = (-1, ⟨7, 3⟩) ∧
    bc_sqrt ⟨-4, 0⟩ 2 = (false, ⟨-4, 0⟩) :=
  ⟨claim_C3_error_atomicity.1 ⟨5, 1⟩ ⟨0, 2⟩ ⟨7, 3⟩ 4 rfl,
   claim_C3_error_atomicity.2.1 ⟨5, 1⟩ ⟨0, 2⟩ ⟨7, 3⟩ (some ⟨8, 1⟩) 4 rfl,
   claim_C3_error_atomicity.2.2.1 ⟨5, 1⟩ ⟨0, 2⟩ ⟨7, 3⟩ 4 rfl,
   claim_C3_error_atomicity.2.2.2.1 ⟨2, 0⟩ ⟨3, 0⟩ ⟨0, 0⟩ ⟨7, 3⟩ 4 (Or.inl rfl),
   claim_C3_error_atomicity.2.2.2.1 ⟨2, 0⟩ ⟨-3, 0⟩ ⟨5, 0⟩ ⟨7, 3⟩ 4 (Or.inr (by decide)),
   claim_C3_error_atomicity.2.2.2.2 ⟨-4, 0⟩ 2 (by decide)⟩

/-- C9: `bc_num2long` returns the toward-zero-truncated integer part of
its argument whenever that integer fits in a 64-bit host `long`, except
that the most negative long `-LONG_MAX - 1` is also mapped to 0; any
integer part outside the long range yields 0 as well, so a 0 return does
not distinguish zero, overflow and the most negative long. -/
theorem claim_C9_num2long_characterization (num : bc_num) :
    bc_num2long num =
      (if (-LONG_MAX - 1 ≤ ratTrunc (toRat num) ∧ ratTrunc (toRat num) ≤ LONG_MAX) ∧
          ratTrunc (toRat num) ≠ -LONG_MAX - 1 then
        ratTrunc (toRat num)
      else 0) :=
  bc_num2long_eq num

/-- C8 fails as stated: for an exponent whose integer part is exactly
`-LONG_MAX - 1 = -2^63`, which does fit in a 64-bit host long, the error
callback is still invoked (because `bc_num2long` maps that value to 0). -/
theorem claim_C8_counterexample :
    bc_raise_raises ⟨-(2 ^ 63), 0⟩ = true ∧
    -LONG_MAX - 1 ≤ (-(2 ^ 63) : Int) ∧ (-(2 ^ 63) : Int) ≤ LONG_MAX ∧
    1 < |toRat ⟨-(2 ^ 63), 0⟩| := by
  refine ⟨by decide, by norm_num [LONG_MAX], by norm_num [LONG_MAX], ?_⟩
  rw [abs_toRat_gt_one_iff]
  norm_num

/-- C8 amended: `bc_raise` invokes the host error callback iff the
exponent's integer part does not fit in a 64-bit host long or equals the
most negative long `-LONG_MAX - 1`, and the exponent's magnitude exceeds
1; when the error is not raised and the integer part is 0, the result
installed is `_one_`. -/
theorem claim_C8_raise_error_amended (num2 : bc_num) :
    (bc_raise_raises num2 = true ↔
      ((ratTrunc (toRat num2) < -LONG_MAX - 1 ∨ LONG_MAX < ratTrunc (toRat num2) ∨
          ratTrunc (toRat num2) = -LONG_MAX - 1) ∧
        1 < |toRat num2|)) ∧
    (∀ (num1 old : bc_num) (scale : Nat),
      bc_raise_raises num2 = false → ratTrunc (toRat num2) = 0 →
      bc_raise num1 num2 old scale = _one_) := by
  have hip : ratTrunc (toRat num2) = num2.value.tdiv (10 ^ num2.scale) :=
    ratTrunc_intCast_div_pow num2.value num2.scale
  have hmag : 1 < |toRat num2| ↔ 10 ^ num2.scale < num2.value.natAbs :=
    abs_toRat_gt_one_iff num2
  have hraises : bc_raise_raises num2 = true ↔
      bc_num2long num2 = 0 ∧ 10 ^ num2.scale < num2.value.natAbs := by
    unfold bc_raise_raises
    rw [Bool.and_eq_true, beq_iff_eq, decide_eq_true_eq, do_compare_abs_one_pos_iff]
  constructor
  · rw [hraises, bc_num2long_eq, hmag]
    constructor
    · rintro ⟨h0, h1⟩
      refine ⟨?_, h1⟩
      by_cases hc : ((-LONG_MAX - 1 ≤ ratTrunc (toRat num2) ∧
          ratTrunc (toRat num2) ≤ LONG_MAX) ∧ ratTrunc (toRat num2) ≠ -LONG_MAX - 1)
      · rw [if_pos hc, hip, tdiv_pow_eq_zero_iff] at h0
        omega
      · omega
    · rintro ⟨h0, h1⟩
      exact ⟨by rw [if_neg (by omega)], h1⟩
  · intro num1 old scale hfalse h0
    have hz : bc_num2long num2 = 0 := by
      rw [bc_num2long_eq, h0]
      split_ifs <;> rfl
    simp [bc_raise, hz]

/-- C4 fails as stated at a zero radicand: `bc_sqrt` installs the shared
`_zero_` singleton with stored scale 0 although `max (s, n.scale) = 1`. -/
theorem claim_C4_counterexample :
    (bc_sqrt ⟨0, 0⟩ 1).2.scale = 0 ∧ max 1 (⟨0, 0⟩ : bc_num).scale = 1 := by
  rw [bc_sqrt_zero_path ⟨0, 0⟩ 1 rfl]
  exact ⟨rfl, rfl⟩

/-- C4 amended: for `n ≥ 0` and any requested scale `s`, `bc_sqrt`
returns true and the result `r` satisfies `r² ≤ n < (r + 10^{-s})²` over
the rationals; the stored scale is `max s n.scale` except on the
fast paths where the value compares equal to 0 or 1, which install the
scale-0 singletons. -/
theorem claim_C4_sqrt_amended (num : bc_num) (scale : Nat) (h : 0 ≤ num.value) :
    (bc_sqrt num scale).1 = true ∧
    toRat (bc_sqrt num scale).2 ^ 2 ≤ toRat num ∧
    toRat num < (toRat (bc_sqrt num scale).2 + 1 / 10 ^ scale) ^ 2 ∧
    (bc_sqrt num scale).2.scale =
      (if num.value = 0 ∨ num.value = 10 ^ num.scale then 0
       else max scale num.scale) := by
  rcases eq_or_lt_of_le h with hz | hpos
  · rw [bc_sqrt_zero_path num scale hz.symm]
    have htr : toRat num = 0 := by
      unfold toRat
      rw [← hz]
      norm_num
    have hz0 : toRat _zero_ = 0 := by norm_num [toRat, _zero_]
    refine ⟨rfl, ?_, ?_, ?_⟩
    · show toRat _zero_ ^ 2 ≤ toRat num
      rw [htr, hz0]
      norm_num
    · show toRat num < (toRat _zero_ + 1 / 10 ^ scale) ^ 2
      rw [htr, hz0, zero_add]
      positivity
    · show _zero_.scale = _
      rw [if_pos (Or.inl hz.symm)]
      rfl
  · rcases eq_or_ne num.value (10 ^ num.scale) with hone | hone
    · rw [bc_sqrt_one_path num scale hone]
      have htr : toRat num = 1 := by
        unfold toRat
        rw [hone]
        push_cast
        exact div_self (ten_pow_ne_q num.scale)
      have hone_r : toRat _one_ = 1 := by norm_num [toRat, _one_]
      have heps : (0 : ℚ) < 1 / 10 ^ scale := by positivity
      refine ⟨rfl, ?_, ?_, ?_⟩
      · show toRat _one_ ^ 2 ≤ toRat num
        rw [htr, hone_r]
        norm_num
      · show toRat num < (toRat _one_ + 1 / 10 ^ scale) ^ 2
        rw [htr, hone_r]
        nlinarith [heps]
      · show _one_.scale = _
        rw [if_pos (Or.inr hone)]
        rfl
    · rw [bc_sqrt_general num scale hpos hone]
      set rs := max scale num.scale with hrsdef
      have hns : num.scale ≤ rs := le_max_right _ _
      have hsc : scale ≤ rs := le_max_left _ _
      have hns2 : num.scale ≤ 2 * rs := by omega
      set M : Int := num.value * 10 ^ (2 * rs - num.scale) with hMdef
      have hM : (0 : Int) ≤ M := by positivity
      set R : Int := Int.sqrt M with hRdef
      have hR0 : (0 : Int) ≤ R := Int.sqrt_nonneg M
      have hsq_le : R ^ 2 ≤ M := by
        rw [hRdef, Int.sqrt]
        calc ((Nat.sqrt M.toNat : ℤ)) ^ 2 = ((Nat.sqrt M.toNat ^ 2 : ℕ) : ℤ) := by
              push_cast
              ring
          _ ≤ (M.toNat : ℤ) := by exact_mod_cast Nat.sqrt_le' M.toNat
          _ = M := Int.toNat_of_nonneg hM
      have hsq_gt : M < (R + 1) ^ 2 := by
        rw [hRdef, Int.sqrt]
        calc M = (M.toNat : ℤ) := (Int.toNat_of_nonneg hM).symm
          _ < (((Nat.sqrt M.toNat).succ ^ 2 : ℕ) : ℤ) := by
              exact_mod_cast Nat.lt_succ_sqrt' M.toNat
          _ = ((Nat.sqrt M.toNat : ℤ) + 1) ^ 2 := by
              rw [Nat.succ_eq_add_one]
              push_cast
              ring
      refine ⟨rfl, ?_, ?_, ?_⟩
      · show ((R : ℚ) / 10 ^ rs) ^ 2 ≤ (num.value : ℚ) / 10 ^ num.scale
        rw [div_pow, div_le_div_iff (by positivity) (by positivity)]
        have key : R ^ 2 * 10 ^ num.scale ≤ num.value * 10 ^ (2 * rs) := by
          calc R ^ 2 * 10 ^ num.scale ≤ M * 10 ^ num.scale :=
                mul_le_mul_of_nonneg_right hsq_le (by positivity)
            _ = num.value * 10 ^ (2 * rs) := by
                rw [hMdef, mul_assoc, ← pow_add]
                congr 2
                omega
        calc ((R : ℚ)) ^ 2 * 10 ^ num.scale = (((R ^ 2 * 10 ^ num.scale : ℤ)) : ℚ) := by
              push_cast
              ring
          _ ≤ (((num.value * 10 ^ (2 * rs) : ℤ)) : ℚ) := by exact_mod_cast key
          _ = (num.value : ℚ) * ((10 : ℚ) ^ rs) ^ 2 := by
              push_cast
              rw [← pow_mul]
              ring_nf
      · have hstep : (num.value : ℚ) / 10 ^ num.scale =
            ((num.value * 10 ^ (2 * rs - num.scale) : ℤ) : ℚ) / 10 ^ (2 * rs) := by
          rw [Int.cast_mul]
          push_cast
          rw [qdiv_shift num.value num.scale (2 * rs) hns2]
        have h2 : toRat num < ((R : ℚ) + 1) ^ 2 / (10 ^ rs) ^ 2 := by
          unfold toRat
          rw [hstep]
          rw [show ((10 : ℚ) ^ rs) ^ 2 = 10 ^ (2 * rs) by rw [← pow_mul, Nat.mul_comm]]
          rw [div_lt_div_iff (by positivity) (by positivity)]
          have : (M : ℚ) < ((R : ℚ) + 1) ^ 2 := by exact_mod_cast hsq_gt
          calc ((num.value * 10 ^ (2 * rs - num.scale) : ℤ) : ℚ) * 10 ^ (2 * rs)
              = (M : ℚ) * 10 ^ (2 * rs) := by rw [hMdef]
            _ < ((R : ℚ) + 1) ^ 2 * 10 ^ (2 * rs) :=
                mul_lt_mul_of_pos_right this (by positivity)
        have h3 : ((R : ℚ) + 1) / 10 ^ rs ≤ (R : ℚ) / 10 ^ rs + 1 / 10 ^ scale := by
          rw [add_div]
          have : (1 : ℚ) / 10 ^ rs ≤ 1 / 10 ^ scale :=
            one_div_le_one_div_of_le (by positivity)
              (pow_le_pow_right (by norm_num) hsc)
          linarith
        have h4 : ((R : ℚ) + 1) ^ 2 / (10 ^ rs) ^ 2 =
            (((R : ℚ) + 1) / 10 ^ rs) ^ 2 := by rw [div_pow]
        have h5 : (((R : ℚ) + 1) / 10 ^ rs) ^ 2 ≤
            ((R : ℚ) / 10 ^ rs + 1 / 10 ^ scale) ^ 2 := by
          refine pow_le_pow_left (by positivity) h3 2
        calc toRat num < ((R : ℚ) + 1) ^ 2 / (10 ^ rs) ^ 2 := h2
          _ = (((R : ℚ) + 1) / 10 ^ rs) ^ 2 := h4
          _ ≤ ((R : ℚ) / 10 ^ rs + 1 / 10 ^ scale) ^ 2 := h5
          _ = (toRat ⟨R, rs⟩ + 1 / 10 ^ scale) ^ 2 := rfl
      · rw [if_neg (by push_neg; exact ⟨hpos.ne', hone⟩)]

theorem claim_C4_sqrt_amended_witness :
    ((0 : Int) ≤ (⟨2, 0⟩ : bc_num).value) ∧
    ((bc_sqrt ⟨2, 0⟩ 0).1 = true ∧
      toRat (bc_sqrt ⟨2, 0⟩ 0).2 ^ 2 ≤ toRat ⟨2, 0⟩ ∧
      toRat ⟨2, 0⟩ < (toRat (bc_sqrt ⟨2, 0⟩ 0).2 + 1 / 10 ^ 0) ^ 2 ∧
      (bc_sqrt ⟨2, 0⟩ 0).2.scale =
        (if (⟨2, 0⟩ : bc_num).value = 0 ∨
            (⟨2, 0⟩ : bc_num).value = 10 ^ (⟨2, 0⟩ : bc_num).scale then 0
         else max 0 (⟨2, 0⟩ : bc_num).scale)) :=
  ⟨by decide, claim_C4_sqrt_amended ⟨2, 0⟩ 0 (by decide)⟩

/-- C5 fails as stated: the number 0.5 (integer 5, scale 1) formats as
".5" with no integer digit at all. -/
theorem claim_C5_counterexample :
    bc_num2str ⟨5, 1⟩ = ['.', '5'] ∧ (bc_num2str ⟨5, 1⟩).head? = some '.' := by
  constructor <;> rfl

/-- C5 amended: `bc_num2str` emits the minus sign exactly for negative
numbers, then the integer digits, then (when `scale > 0`) a point and
exactly `scale` fraction digits zero-padded on the left; the integer
digit run is empty exactly when the digit string is no longer than the
scale (values of magnitude below 1), and nonempty in particular whenever
`scale = 0`. -/
theorem claim_C5_num2str_amended (num : bc_num) :
    bc_num2str num =
      (if num.value < 0 then ['-'] else []) ++
      (natDecimal num.value.natAbs).take ((natDecimal num.value.natAbs).length - num.scale) ++
      (if 0 < num.scale then
        '.' :: (List.replicate (num.scale - (natDecimal num.value.natAbs).length) '0' ++
          (natDecimal num.value.natAbs).drop
            ((natDecimal num.value.natAbs).length - num.scale))
       else []) ∧
    ((natDecimal num.value.natAbs).all Char.isDigit = true) ∧
    (List.replicate (num.scale - (natDecimal num.value.natAbs).length) '0' ++
      (natDecimal num.value.natAbs).drop
        ((natDecimal num.value.natAbs).length - num.scale)).length = num.scale ∧
    ((natDecimal num.value.natAbs).take ((natDecimal num.value.natAbs).length - num.scale)
        = [] ↔ (natDecimal num.value.natAbs).length ≤ num.scale) := by
  set ds := natDecimal num.value.natAbs with hds
  set L := ds.length with hL
  refine ⟨bc_num2str_eq num, ?_, ?_, ?_⟩
  · rw [List.all_eq_true]
    exact natDecimal_all_digits _
  · rw [List.length_append, List.length_replicate, List.length_drop]
    omega
  · rw [List.take_eq_nil_iff]
    have hne : ds ≠ [] := natDecimal_ne_nil _
    constructor
    · rintro (h | h)
      · omega
      · exact absurd h hne
    · intro h
      left
      omega

/-- C7: for every number producible by `bc_str2num`, parsing its
`bc_num2str` text back at its own scale restores it exactly, in both
represented value and stored scale. -/
theorem claim_C7_roundtrip (n : bc_num) (h : ∃ str sc, bc_str2num str sc = n) :
    bc_str2num (bc_num2str n) n.scale = n := by
  obtain ⟨v, s⟩ := n
  exact str2num_num2str v s

theorem claim_C7_roundtrip_witness :
    (∃ str sc, bc_str2num str sc = (⟨-5, 1⟩ : bc_num)) ∧
    bc_str2num (bc_num2str ⟨-5, 1⟩) (⟨-5, 1⟩ : bc_num).scale = ⟨-5, 1⟩ :=
  ⟨⟨['-', '0', '.', '5'], 1, by decide⟩,
   claim_C7_roundtrip ⟨-5, 1⟩ ⟨['-', '0', '.', '5'], 1, by decide⟩⟩

theorem claim_C8_raise_error_amended_witness :
    (bc_raise_raises ⟨0, 0⟩ = false) ∧ (ratTrunc (toRat ⟨0, 0⟩) = 0) ∧
    bc_raise ⟨3, 2⟩ ⟨0, 0⟩ ⟨7, 7⟩ 5 = _one_ :=
  ⟨by decide, by simp [ratTrunc, toRat],
   (claim_C8_raise_error_amended ⟨0, 0⟩).2 ⟨3, 2⟩ ⟨7, 7⟩ 5 (by decide)
     (by simp [ratTrunc, toRat])⟩

/-- C6 fails as stated: printing 17 in base 17 emits a space before the
FIRST integer-part digit as well — the output is " 01 00", not "01 00". -/
theorem claim_C6_counterexample :
    bc_out_num ⟨17, 0⟩ 17 false = [' ', '0', '1', ' ', '0', '0'] ∧
    (bc_out_num ⟨17, 0⟩ 17 false).head? = some ' ' := by
  constructor <;> rfl

/-- C6 amended: for a nonzero number and a base `16 < b ≤ 2^63`, every
digit of the integer part is emitted through `bc_out_long` as its decimal
text zero-padded to the width of `b - 1`, with a single space before
EVERY integer-part digit, the first included (the code passes `space = 1`
unconditionally in the integer digit loop). -/
theorem claim_C6_out_num_amended (num : bc_num) (b : Nat) (lz : Bool)
    (h0 : num.value ≠ 0) (hb : 16 < b) (hb64 : b ≤ 2 ^ 63) :
    bc_out_num num b lz =
      (if num.value < 0 then ['-'] else []) ++
      (((Nat.digits b (num.value.tdiv (10 ^ num.scale)).natAbs).reverse.map
        (fun d : Nat => ' ' ::
          (List.replicate ((natDecimal (b - 1)).length - (natDecimal d).length) '0' ++
            natDecimal d))).join) ++
      (if 0 < num.scale then
        '.' :: _bc_frac_loop
          ⟨|num.value - num.value.tdiv (10 ^ num.scale) * 10 ^ num.scale|, num.scale⟩
          ((b : Nat) : Int) _one_ num.scale (natDecimal (b - 1)).length b false
       else []) := by
  have hsign : ((if bc_is_neg num then ['-'] else []) : List Char) =
      (if num.value < 0 then ['-'] else []) := by
    by_cases h : num.value < 0 <;> simp [bc_is_neg, h]
  have hb1 : ((b : Int) - 1) = (((b - 1 : Nat) : Nat) : Int) := by omega
  have hix : (bc_num2str ⟨(b : Int) - 1, 0⟩).length = (natDecimal (b - 1)).length := by
    rw [show (⟨(b : Int) - 1, 0⟩ : bc_num) = ⟨(((b - 1 : Nat) : Nat) : Int), 0⟩ by
      rw [hb1], bc_num2str_nat]
  have hstack : _bc_digit_stack
      (|num.value.tdiv (10 ^ num.scale)|.natAbs) (|num.value.tdiv (10 ^ num.scale)|)
      ((b : Nat) : Int) [] =
      ((Nat.digits b (num.value.tdiv (10 ^ num.scale)).natAbs).map
        (fun d : Nat => (d : Int))).reverse := by
    rw [Int.abs_eq_natAbs, Int.natAbs_ofNat]
    rw [digit_stack_spec b (by omega) hb64 _ _ le_rfl []]
    rw [List.append_nil]
  have hmaps : ∀ (L : List Nat),
      List.map (fun d : Int => if b ≤ 16 then [ref_str.getD d.toNat '0']
          else bc_out_long d (natDecimal (b - 1)).length true)
        ((List.map (fun d : Nat => (d : Int)) L).reverse) =
      List.map (fun d : Nat => ' ' :: (List.replicate
          ((natDecimal (b - 1)).length - (natDecimal d).length) '0' ++ natDecimal d))
        L.reverse := by
    intro L
    have hrev : (List.map (fun d : Nat => (d : Int)) L).reverse =
        List.map (fun d : Nat => (d : Int)) L.reverse := by
      rw [List.map_reverse]
    rw [hrev, List.map_map]
    congr 1
    funext d
    simp only [Function.comp]
    rw [if_neg (by omega : ¬ b ≤ 16), out_long_nat]
  unfold bc_out_num
  rw [if_neg (by simp [bc_is_zero, h0]), if_neg (by omega)]
  simp only [bc_divide_by_one num, sub_intpart, bc_int2num, hsign]
  rw [if_neg (show ¬ (lz ∧ (bc_is_zero num = true)) by simp [bc_is_zero, h0])]
  simp only [hix, hstack, hmaps]
  rw [List.append_nil]

theorem claim_C6_out_num_amended_witness :
    ((⟨17, 0⟩ : bc_num).value ≠ 0) ∧ (16 < 17) ∧ (17 ≤ 2 ^ 63) ∧
    bc_out_num ⟨17, 0⟩ 17 false =
      (if (⟨17, 0⟩ : bc_num).value < 0 then ['-'] else []) ++
      (((Nat.digits 17 ((⟨17, 0⟩ : bc_num).value.tdiv
            (10 ^ (⟨17, 0⟩ : bc_num).scale)).natAbs).reverse.map
        (fun d : Nat => ' ' ::
          (List.replicate ((natDecimal (17 - 1)).length - (natDecimal d).length) '0' ++
            natDecimal d))).join) ++
      (if 0 < (⟨17, 0⟩ : bc_num).scale then
        '.' :: _bc_frac_loop
          ⟨|(⟨17, 0⟩ : bc_num).value - (⟨17, 0⟩ : bc_num).value.tdiv
              (10 ^ (⟨17, 0⟩ : bc_num).scale) * 10 ^ (⟨17, 0⟩ : bc_num).scale|,
           (⟨17, 0⟩ : bc_num).scale⟩
          ((17 : Nat) : Int) _one_ (⟨17, 0⟩ : bc_num).scale
          (natDecimal (17 - 1)).length 17 false
       else []) :=
  ⟨by decide, by decide, by norm_num,
   claim_C6_out_num_amended ⟨17, 0⟩ 17 false (by decide) (by decide) (by norm_num)⟩

/-- C10: every arithmetic operation computes its result from the operand
values read at entry and only then replaces the result slot, so a call
whose result slot aliases an operand handle (`hr` may equal `h1` or `h2`)
deposits exactly the value the non-aliased call would, and every slot
other than the result slots — in particular the other operand — is left
unchanged. -/
theorem claim_C10_alias_safety :
    (∀ (σ : Store) (h1 h2 hr h sc : Nat),
      (bc_add_op σ h1 h2 hr sc) hr = bc_add (σ h1) (σ h2) sc ∧
      (h ≠ hr → (bc_add_op σ h1 h2 hr sc) h = σ h)) ∧
    (∀ (σ : Store) (h1 h2 hr h sc : Nat),
      (bc_sub_op σ h1 h2 hr sc) hr = bc_sub (σ h1) (σ h2) sc ∧
      (h ≠ hr → (bc_sub_op σ h1 h2 hr sc) h = σ h)) ∧
    (∀ (σ : Store) (h1 h2 hr h sc : Nat),
      (bc_multiply_op σ h1 h2 hr sc) hr = bc_multiply (σ h1) (σ h2) sc ∧
      (h ≠ hr → (bc_multiply_op σ h1 h2 hr sc) h = σ h)) ∧
    (∀ (σ : Store) (h1 h2 hr h sc : Nat),
      (bc_divide_op σ h1 h2 hr sc).1 = (bc_divide (σ h1) (σ h2) (σ hr) sc).1 ∧
      (bc_divide_op σ h1 h2 hr sc).2 hr = (bc_divide (σ h1) (σ h2) (σ hr) sc).2 ∧
      (h ≠ hr → (bc_divide_op σ h1 h2 hr sc).2 h = σ h)) ∧
    (∀ (σ : Store) (h1 h2 hq hr h sc : Nat), hq ≠ hr →
      (bc_divmod_op σ h1 h2 (some hq) hr sc).1 =
        (bc_divmod (σ h1) (σ h2) (some (σ hq)) (σ hr) sc).1 ∧
      (bc_divmod_op σ h1 h2 (some hq) hr sc).2 hr =
        (bc_divmod (σ h1) (σ h2) (some (σ hq)) (σ hr) sc).2.2 ∧
      (bc_divmod_op σ h1 h2 (some hq) hr sc).2 hq =
        ((bc_divmod (σ h1) (σ h2) (some (σ hq)) (σ hr) sc).2.1).getD (σ hq) ∧
      (h ≠ hr → h ≠ hq → (bc_divmod_op σ h1 h2 (some hq) hr sc).2 h = σ h)) ∧
    (∀ (σ : Store) (h1 h2 hr h sc : Nat),
      (bc_modulo_op σ h1 h2 hr sc).1 = (bc_modulo (σ h1) (σ h2) (σ hr) sc).1 ∧
      (bc_modulo_op σ h1 h2 hr sc).2 hr = (bc_modulo (σ h1) (σ h2) (σ hr) sc).2 ∧
      (h ≠ hr → (bc_modulo_op σ h1 h2 hr sc).2 h = σ h)) ∧
    (∀ (σ : Store) (hb he hm hr h sc : Nat),
      (bc_raisemod_op σ hb he hm hr sc).1 =
        (bc_raisemod (σ hb) (σ he) (σ hm) (σ hr) sc).1 ∧
      (bc_raisemod_op σ hb he hm hr sc).2 hr =
        (bc_raisemod (σ hb) (σ he) (σ hm) (σ hr) sc).2 ∧
      (h ≠ hr → (bc_raisemod_op σ hb he hm hr sc).2 h = σ h)) ∧
    (∀ (σ : Store) (h1 h2 hr h sc : Nat),
      (bc_raise_op σ h1 h2 hr sc) hr = bc_raise (σ h1) (σ h2) (σ hr) sc ∧
      (h ≠ hr → (bc_raise_op σ h1 h2 hr sc) h = σ h)) := by
  refine ⟨?_, ?_, ?_, ?_, ?_, ?_, ?_, ?_⟩
  · intro σ h1 h2 hr h sc
    exact ⟨upd_same _ _ _, fun hh => upd_other _ _ _ _ hh⟩
  · intro σ h1 h2 hr h sc
    exact ⟨upd_same _ _ _, fun hh => upd_other _ _ _ _ hh⟩
  · intro σ h1 h2 hr h sc
    exact ⟨upd_same _ _ _, fun hh => upd_other _ _ _ _ hh⟩
  · intro σ h1 h2 hr h sc
    exact ⟨rfl, upd_same _ _ _, fun hh => upd_other _ _ _ _ hh⟩
  · intro σ h1 h2 hq hr h sc hqr
    refine ⟨rfl, ?_, ?_, ?_⟩
    · show upd (upd σ hr _) hq _ hr = _
      rw [upd_other _ _ _ _ (Ne.symm hqr), upd_same]
      rfl
    · show upd (upd σ hr _) hq _ hq = _
      rw [upd_same]
      rfl
    · intro hh1 hh2
      show upd (upd σ hr _) hq _ h = σ h
      rw [upd_other _ _ _ _ hh2, upd_other _ _ _ _ hh1]
  · intro σ h1 h2 hr h sc
    exact ⟨rfl, upd_same _ _ _, fun hh => upd_other _ _ _ _ hh⟩
  · intro σ hb he hm hr h sc
    exact ⟨rfl, upd_same _ _ _, fun hh => upd_other _ _ _ _ hh⟩
  · intro σ h1 h2 hr h sc
    exact ⟨upd_same _ _ _, fun hh => upd_other _ _ _ _ hh⟩

theorem claim_C10_alias_safety_witness :
    ((1 : Nat) ≠ 0) ∧
    ((bc_multiply_op (fun k => if k = 0 then ⟨3, 1⟩ else ⟨25, 2⟩) 0 1 0 2) 0 =
      bc_multiply ⟨3, 1⟩ ⟨25, 2⟩ 2 ∧
     ((1 : Nat) ≠ 0 →
      (bc_multiply_op (fun k => if k = 0 then ⟨3, 1⟩ else ⟨25, 2⟩) 0 1 0 2) 1 =
        (fun k : Nat => if k = 0 then (⟨3, 1⟩ : bc_num) else ⟨25, 2⟩) 1)) := by
  constructor
  · decide
  · have h := claim_C10_alias_safety.2.2.1
      (fun k => if k = 0 then (⟨3, 1⟩ : bc_num) else ⟨25, 2⟩) 0 1 0 1 2
    exact ⟨h.1, h.2⟩

end BC
